import Mathlib

/-!
Shallow embedding of the core of `app.py` from DIS-Daniel/Version_Compare.

The embedded functions:
* `side_by_side_diff` (app.py lines 78-95), together with the algorithm of
  `difflib.SequenceMatcher` (CPython `difflib.py`) that it invokes with
  `isjunk = None`: `__chain_b` (the `b2j` table with the autojunk purge of
  popular elements), `find_longest_match`, `get_matching_blocks` and
  `get_opcodes`.
* `rel_map` (lines 97-99), `should_ignore` (lines 101-102) with the glob
  matcher of `fnmatch`, and `compare_folders` (lines 104-138).

Python strings used as paths are modelled as `List Char`; file lines are
modelled as Lean `String`s (they are only compared for equality).  Machine
integers do not occur (Python ints are unbounded); all indices are `Nat`,
and every subtraction `x - y` in the source is only performed where the
source guarantees `y ≤ x`, which is noted where it matters.
-/

namespace VersionCompare

/-- A line of a text file (Python `str`; only equality on lines is used). -/
abbrev Line := String

/-- A Python string used as a path, modelled as its list of characters. -/
abbrev PyStr := List Char

/-! ### difflib.SequenceMatcher, specialised to `isjunk = None`

With `isjunk = None` the junk set `bjunk` stays empty, so in
`find_longest_match` the `isbjunk` tests are constantly false and the two
final "junk extension" loops never execute; they are therefore omitted
below.  The `b2j` dictionary maps an element to the ascending list of its
indices in `b`; it is modelled as a function. -/

/-- `__chain_b` before the autojunk purge: ascending list of positions of
`x` in `b` (`b2j.setdefault(elt, []).append(i)` over `enumerate(b)`). -/
def b2jRaw (b : List Line) (x : Line) : List Nat :=
  (List.range b.length).filter (fun j => b.getD j "" == x)

/-- `__chain_b` with the autojunk purge: when `len(b) >= 200`, elements with
more than `len(b) // 100 + 1` occurrences are removed from `b2j`. -/
def b2j (b : List Line) (x : Line) : List Nat :=
  let idxs := b2jRaw b x
  if 200 ≤ b.length ∧ b.length / 100 + 1 < idxs.length then [] else idxs

/-- The inner loop of `find_longest_match` over `b2j.get(a[i], [])`:
`f` is the previous row's `j2len`, `g` accumulates `newj2len`, and the
running best is `(besti, bestj, bestsize)`.  `j < blo` is `continue`,
`j >= bhi` is `break`.  Python computes `j2len.get(j-1, 0)`, where `j-1`
is `-1` (hence the default `0`) when `j = 0`; and `besti = i-k+1`,
`bestj = j-k+1`, which are nonnegative because a chain value `k` never
exceeds `i+1` or `j+1`, so they are written `i+1-k`, `j+1-k` here. -/
def innerLoop (blo bhi i : Nat) (f : Nat → Nat) :
    List Nat → (Nat → Nat) → Nat × Nat × Nat → (Nat → Nat) × (Nat × Nat × Nat)
  | [], g, best => (g, best)
  | j :: js, g, best =>
    if j < blo then innerLoop blo bhi i f js g best
    else if bhi ≤ j then (g, best)
    else
      let k := (if j = 0 then 0 else f (j - 1)) + 1
      let g' := fun j' => if j' = j then k else g j'
      if best.2.2 < k then innerLoop blo bhi i f js g' (i + 1 - k, j + 1 - k, k)
      else innerLoop blo bhi i f js g' best

/-- The outer loop of `find_longest_match` over `i in range(alo, ahi)`:
each row starts a fresh `newj2len` and then replaces `j2len` by it. -/
def rows (a : List Line) (bj : Line → List Nat) (blo bhi : Nat) :
    List Nat → (Nat → Nat) → Nat × Nat × Nat → Nat × Nat × Nat
  | [], _, best => best
  | i :: is, f, best =>
    let r := innerLoop blo bhi i f (bj (a.getD i "")) (fun _ => 0) best
    rows a bj blo bhi is r.1 r.2

/-- First extension loop of `find_longest_match`
(`while besti > alo and bestj > blo and a[besti-1] == b[bestj-1]`),
by structural recursion on `besti`, which strictly decreases. -/
def extendBack (a b : List Line) (alo blo : Nat) : Nat → Nat → Nat → Nat × Nat × Nat
  | 0, bj, bs => (0, bj, bs)
  | bi + 1, bj, bs =>
    if alo < bi + 1 ∧ blo < bj ∧ a.getD bi "" = b.getD (bj - 1) "" then
      extendBack a b alo blo bi (bj - 1) (bs + 1)
    else (bi + 1, bj, bs)

/-- Second extension loop of `find_longest_match`
(`while besti+bestsize < ahi and bestj+bestsize < bhi and
a[besti+bestsize] == b[bestj+bestsize]: bestsize += 1`), with explicit
fuel.  Called with fuel `ahi` the recursion replicates the loop exactly:
after `ahi` increments `bi + bs < ahi` is false anyway. -/
def extendFwdAux (a b : List Line) (ahi bhi bi bj : Nat) : Nat → Nat → Nat
  | 0, bs => bs
  | fuel + 1, bs =>
    if bi + bs < ahi ∧ bj + bs < bhi ∧ a.getD (bi + bs) "" = b.getD (bj + bs) "" then
      extendFwdAux a b ahi bhi bi bj fuel (bs + 1)
    else bs

/-- `SequenceMatcher.find_longest_match` with `isjunk = None` (the two
junk-extension loops are no-ops since `bjunk` is empty). -/
def find_longest_match (a b : List Line) (alo ahi blo bhi : Nat) : Nat × Nat × Nat :=
  let r := rows a (b2j b) blo bhi (List.range' alo (ahi - alo)) (fun _ => 0) (alo, blo, 0)
  let r2 := extendBack a b alo blo r.1 r.2.1 r.2.2
  (r2.1, r2.2.1, extendFwdAux a b ahi bhi r2.1 r2.2.1 ahi r2.2.2)

/-- The divide-and-conquer pass of `get_matching_blocks`.  The Python code
runs a LIFO queue and sorts the collected triples at the end; because every
triple found in the left subproblem is lexicographically smaller than
`(i, j, k)` and every triple of the right subproblem larger, the sorted
list is exactly this in-order traversal.  The recursion is written with
fuel (`ahi - alo + bhi - blo` strictly decreases at each recursive call,
so any fuel above the initial measure is enough, and the fuel-0 branch is
never reached from `get_matching_blocks`). -/
def mblocksF (a b : List Line) : Nat → Nat → Nat → Nat → Nat → List (Nat × Nat × Nat)
  | 0, _, _, _, _ => []
  | fuel + 1, alo, ahi, blo, bhi =>
    let m := find_longest_match a b alo ahi blo bhi
    if m.2.2 = 0 then []
    else
      (if alo < m.1 ∧ blo < m.2.1 then mblocksF a b fuel alo m.1 blo m.2.1 else []) ++
        m :: (if m.1 + m.2.2 < ahi ∧ m.2.1 + m.2.2 < bhi then
          mblocksF a b fuel (m.1 + m.2.2) ahi (m.2.1 + m.2.2) bhi else [])

/-- The collapsing loop at the end of `get_matching_blocks` (state
`(i1, j1, k1)`, initially `(0, 0, 0)`): adjacent blocks merge, and a block
is emitted when a non-adjacent one arrives (`if k1: append`). -/
def mergeBlocks : List (Nat × Nat × Nat) → Nat → Nat → Nat → List (Nat × Nat × Nat)
  | [], i1, j1, k1 => if k1 = 0 then [] else [(i1, j1, k1)]
  | (i2, j2, k2) :: rest, i1, j1, k1 =>
    if i1 + k1 = i2 ∧ j1 + k1 = j2 then mergeBlocks rest i1 j1 (k1 + k2)
    else if k1 = 0 then mergeBlocks rest i2 j2 k2
    else (i1, j1, k1) :: mergeBlocks rest i2 j2 k2

/-- `SequenceMatcher.get_matching_blocks`, ending with the sentinel
`(len(a), len(b), 0)`. -/
def get_matching_blocks (a b : List Line) : List (Nat × Nat × Nat) :=
  mergeBlocks (mblocksF a b (a.length + b.length + 1) 0 a.length 0 b.length) 0 0 0 ++
    [(a.length, b.length, 0)]

/-- One entry of `get_opcodes`: `(tag, i1, i2, j1, j2)`. -/
structure Opcode where
  tag : String
  i1 : Nat
  i2 : Nat
  j1 : Nat
  j2 : Nat
deriving DecidableEq

/-- The loop of `get_opcodes` over the matching blocks, carrying `(i, j)`. -/
def opcodeLoop : List (Nat × Nat × Nat) → Nat → Nat → List Opcode
  | [], _, _ => []
  | (ai, bj, size) :: rest, i, j =>
    (if i < ai ∧ j < bj then [⟨"replace", i, ai, j, bj⟩]
     else if i < ai then [⟨"delete", i, ai, j, bj⟩]
     else if j < bj then [⟨"insert", i, ai, j, bj⟩]
     else []) ++
    (if size = 0 then [] else [⟨"equal", ai, ai + size, bj, bj + size⟩]) ++
    opcodeLoop rest (ai + size) (bj + size)

/-- `SequenceMatcher.get_opcodes`. -/
def get_opcodes (a b : List Line) : List Opcode :=
  opcodeLoop (get_matching_blocks a b) 0 0

/-! ### side_by_side_diff (app.py lines 78-95) -/

/-- Python list slicing `l[i1:i2]` for nonnegative bounds (out-of-range
bounds clamp, exactly as `take`/`drop` do). -/
def pySlice (l : List Line) (i1 i2 : Nat) : List Line := (l.take i2).drop i1

/-- The status string computed from the opcode tag (lines 88-93). -/
def statusOf (tag : String) : String :=
  if tag = "equal" then "Unchanged"
  else if tag = "replace" then "Modified"
  else if tag = "delete" then "Removed"
  else "Added"

/-- The body of the opcode loop in `side_by_side_diff` (lines 82-94):
slice out both chunks, pad the shorter one with `""` up to the longer
length, zip, and attach the tag's status to every pair. -/
def emitOp (a b : List Line) (op : Opcode) : List (Line × Line × String) :=
  let oldc := pySlice a op.i1 op.i2
  let newc := pySlice b op.j1 op.j2
  let m := max oldc.length newc.length
  ((oldc ++ List.replicate (m - oldc.length) "").zip
      (newc ++ List.replicate (m - newc.length) "")).map
    (fun p => (p.1, p.2, statusOf op.tag))

/-- `side_by_side_diff` (lines 78-95): concatenate the per-opcode pair
lists in opcode order. -/
def side_by_side_diff (lines_old lines_new : List Line) : List (Line × Line × String) :=
  (get_opcodes lines_old lines_new).bind (emitOp lines_old lines_new)

/-! ### fnmatch (glob matching used by should_ignore)

`fnmatch.fnmatch(rel, p)` on a POSIX platform is case-sensitive shell-glob
matching of the whole string: `*` matches any sequence (including `/`),
`?` any single character, `[seq]` a character class with ranges and with
`!` negation, a leading `]` in a class is a literal member, and an
unterminated `[` is a literal `[`. -/

/-- Membership of a character in the body of a `[...]` class: `x-y` is a
range (an inverted range matches nothing, as in the translated regex), any
other character is a literal member (so a trailing `-` is literal). -/
def inClass : List Char → Char → Bool
  | lo :: '-' :: hi :: rest, c => (decide (lo ≤ c) && decide (c ≤ hi)) || inClass rest c
  | x :: rest, c => (x == c) || inClass rest c
  | [], _ => false

/-- Split a list at the first `']'`, returning the part before and after. -/
def findClose : List Char → Option (List Char × List Char)
  | [] => none
  | ']' :: rest => some ([], rest)
  | c :: rest => (findClose rest).map (fun p => (c :: p.1, p.2))

/-- Parse a character class after an opening `[`: an optional leading `!`
negates it, a `]` right after that is a literal member, and the class runs
to the next `]`.  Returns `(negated, class body, rest of the pattern)`, or
`none` when no closing `]` exists (the `[` is then a literal). -/
def parseClass (ps : List Char) : Option (Bool × List Char × List Char) :=
  match ps with
  | '!' :: rest =>
    match rest with
    | ']' :: rest2 => (findClose rest2).map (fun p => (true, ']' :: p.1, p.2))
    | _ => (findClose rest).map (fun p => (true, p.1, p.2))
  | ']' :: rest2 => (findClose rest2).map (fun p => (false, ']' :: p.1, p.2))
  | _ => (findClose ps).map (fun p => (false, p.1, p.2))

/-- Glob matching of pattern against string, with explicit fuel.  Every
recursive call strictly decreases `pattern length + string length`, so fuel
`pattern length + string length + 1` replicates the recursion exactly. -/
def globMatchF : Nat → List Char → List Char → Bool
  | 0, _, _ => false
  | fuel + 1, pat, s =>
    match pat, s with
    | [], [] => true
    | [], _ :: _ => false
    | '*' :: ps, s =>
      globMatchF fuel ps s ||
        (match s with
         | [] => false
         | _ :: s2 => globMatchF fuel ('*' :: ps) s2)
    | '?' :: ps, s =>
      match s with
      | [] => false
      | _ :: s2 => globMatchF fuel ps s2
    | '[' :: ps, s =>
      match parseClass ps with
      | some (neg, body, rest) =>
        (match s with
         | [] => false
         | c :: s2 => (if neg then !inClass body c else inClass body c) && globMatchF fuel rest s2)
      | none =>
        match s with
        | [] => false
        | c :: s2 => (c == '[') && globMatchF fuel ps s2
    | p :: ps, s =>
      match s with
      | [] => false
      | c :: s2 => (p == c) && globMatchF fuel ps s2

/-- `fnmatch.fnmatch(name, pat)` (POSIX: no case folding). -/
def fnmatch (name pat : PyStr) : Bool :=
  globMatchF (pat.length + name.length + 1) pat name

/-- `should_ignore` (app.py lines 101-102). -/
def should_ignore (rel : PyStr) (patterns : List PyStr) : Bool :=
  patterns.any (fun p => fnmatch rel p)

/-! ### rel_map (app.py lines 97-99) -/

/-- Python `s.rstrip("/")`: remove all trailing `/` characters. -/
def rstripSlash (s : PyStr) : PyStr :=
  (s.reverse.dropWhile (fun c => c == '/')).reverse

/-- `rel_map` (lines 97-99): the dict comprehension
`{f[len(root)+1:]: f for f in files if f.startswith(root + "/")}` (after
`root = root.rstrip("/")`), modelled as the association list of its entries
in iteration order; `dictGet` below gives it Python-dict (last-wins)
lookup semantics. -/
def rel_map (files : List PyStr) (root : PyStr) : List (PyStr × PyStr) :=
  let r := rstripSlash root
  (files.filter (fun f => (r ++ ['/']).isPrefixOf f)).map
    (fun f => (f.drop (r.length + 1), f))

/-- Python dict lookup `d.get(k)` for the association list built by
`rel_map`: a later binding of the same key overwrites an earlier one. -/
def dictGet (d : List (PyStr × PyStr)) (k : PyStr) : Option PyStr :=
  d.foldl (fun acc p => if p.1 = k then some p.2 else acc) none

/-! ### compare_folders (app.py lines 104-138)

The two paramiko SFTP sessions are external collaborators; each is
modelled as an oracle:
* `files` models the recursive `list_files` traversal (lines 54-66),
  which never throws (a failing subtree is swallowed by `except: pass`);
* `read` models `sftp.open(...).read().decode(errors="ignore")
  .splitlines()` for one file: `none` is the failure marker produced by
  the `except` branch of `read_file_lines`, `some lines` a successful
  read (decoding is lossy but never fails, so success with zero lines,
  `some []`, is exactly an empty file).

To state the temporal claims, `compare_folders` is embedded so that
besides the Python return value (`diffs`) it also records the trace of
`read_file_lines` invocations (`reads`, the arguments of all calls in
order) and of `progress_callback` invocations (`progress`).  The flag
`hp` models `progress_callback` being non-None.  In the source the
ignored branch invokes the callback and `continue`s while every other
branch falls through to the invocation at the end of the loop body; in
both cases exactly one call `(i, total, rel)` is made after the branch's
handling, which is how the loop below records it. -/

structure Sftp where
  files : PyStr → List PyStr
  read : PyStr → Option (List Line)

/-- `list_files` (lines 54-66): `path = path.rstrip("/")`, then the
recursive listing, which is the `files` oracle of the session. -/
def list_files (sftp : Sftp) (path : PyStr) : List PyStr :=
  sftp.files (rstripSlash path)

/-- `read_file_lines` (lines 68-73).  Its argument in `compare_folders`
is `files_old.get(rel)` / `files_new.get(rel)` and may be `None`, in which
case `sftp.open(None, "rb")` raises and the `except` returns `None`. -/
def read_file_lines (sftp : Sftp) : Option PyStr → Option (List Line)
  | none => none
  | some fp => sftp.read fp

/-- Python truthiness of `po : str | None`: `None` and `""` are falsy. -/
def truthy : Option PyStr → Bool
  | none => false
  | some s => !s.isEmpty

/-- One record of the result list: `(rel, status string, diff lines)`. -/
abbrev Record := PyStr × String × List (Line × Line × String)

/-- Result records plus the trace of `read_file_lines` calls made while
handling one relative path. -/
structure PathOut where
  recs : List Record
  reads : List (Option PyStr)

/-- The body of the `for` loop of `compare_folders` for one `rel`
(lines 113-133), producing the records appended to `diffs` and the trace
of `read_file_lines` calls. -/
def processPath (sftp_old sftp_new : Sftp) (files_old files_new : List (PyStr × PyStr))
    (ignore_patterns : List PyStr) (hide_ignored : Bool) (rel : PyStr) : PathOut :=
  let po := dictGet files_old rel
  let pn := dictGet files_new rel
  if should_ignore rel ignore_patterns then
    ⟨if hide_ignored then [] else [(rel, "Ignored (pattern)", [])], []⟩
  else if truthy po && !truthy pn then ⟨[(rel, "Only in Old Folder", [])], []⟩
  else if truthy pn && !truthy po then ⟨[(rel, "Only in New Folder", [])], []⟩
  else
    let lo := read_file_lines sftp_old po
    let ln := read_file_lines sftp_new pn
    if lo = none ∨ ln = none then ⟨[(rel, "Binary or unreadable file", [])], [po, pn]⟩
    else ⟨[(rel, "Side-by-side diff", side_by_side_diff (lo.getD []) (ln.getD []))], [po, pn]⟩

/-- The value of one `compare_folders` run: the returned `diffs` list and
the traces of reader and progress-callback invocations. -/
structure CompareResult where
  diffs : List Record
  reads : List (Option PyStr)
  progress : List (Nat × Nat × PyStr)

/-- The `for i, rel in enumerate(all_files, 1)` loop of `compare_folders`
(lines 112-136), threading the 1-based counter `i` and the constant
`total`. -/
def comparePaths (so sn : Sftp) (fo fn : List (PyStr × PyStr)) (ip : List PyStr)
    (hi hp : Bool) : List PyStr → Nat → Nat → CompareResult
  | [], _, _ => ⟨[], [], []⟩
  | rel :: rest, i, total =>
    let p := processPath so sn fo fn ip hi rel
    let r := comparePaths so sn fo fn ip hi hp rest (i + 1) total
    ⟨p.recs ++ r.diffs, p.reads ++ r.reads, (if hp then [(i, total, rel)] else []) ++ r.progress⟩

/-- Lexicographic `<` on Python strings (code-point order). -/
def strLt : PyStr → PyStr → Bool
  | [], [] => false
  | [], _ :: _ => true
  | _ :: _, [] => false
  | c :: s, d :: t => if c = d then strLt s t else decide (c < d)

/-- Insert into a strictly sorted list, dropping duplicates. -/
def insSorted (x : PyStr) : List PyStr → List PyStr
  | [] => [x]
  | y :: ys =>
    if strLt x y then x :: y :: ys
    else if x = y then y :: ys
    else y :: insSorted x ys

/-- `sorted(set(xs))`: the strictly sorted list of the distinct elements
of `xs` (such a list is unique, so any faithful model of
`sorted(set(files_old) | set(files_new))` equals this one). -/
def sortedDistinct (xs : List PyStr) : List PyStr := xs.foldr insSorted []

/-- `all_files = sorted(set(files_old) | set(files_new))` (line 108). -/
def allFilesOf (so sn : Sftp) (folder_old folder_new : PyStr) : List PyStr :=
  sortedDistinct
    ((rel_map (list_files so folder_old) folder_old).map Prod.fst ++
      (rel_map (list_files sn folder_new) folder_new).map Prod.fst)

/-- `compare_folders` (lines 104-138). -/
def compare_folders (so sn : Sftp) (folder_old folder_new : PyStr) (ip : List PyStr)
    (hi hp : Bool) : CompareResult :=
  let fo := rel_map (list_files so folder_old) folder_old
  let fn := rel_map (list_files sn folder_new) folder_new
  let af := allFilesOf so sn folder_old folder_new
  comparePaths so sn fo fn ip hi hp af 1 af.length

/-- The TreeIndex one side of `compare_folders` works with
(`rel_map(list_files(sftp, folder), folder)`, lines 105-106). -/
def treeIndex (s : Sftp) (folder : PyStr) : List (PyStr × PyStr) :=
  rel_map (list_files s folder) folder

/-! ### Concrete sessions used to instantiate theorems with hypotheses -/

/-- A session whose tree holds a text file and a `.bin` file. -/
def sA : Sftp :=
  ⟨fun _ => ["/o/a.txt".toList, "/o/x.bin".toList],
   fun p => if p = "/o/a.txt".toList then some ["1"] else none⟩

/-- A session whose tree holds one readable text file. -/
def sB : Sftp := ⟨fun _ => ["/n/a.txt".toList], fun _ => some ["1"]⟩

/-- Sessions where every content read fails. -/
def sFailO : Sftp := ⟨fun _ => ["/o/e.txt".toList], fun _ => none⟩

def sFailN : Sftp := ⟨fun _ => ["/n/e.txt".toList], fun _ => none⟩

/-- Sessions where every content read succeeds with an empty file. -/
def sEmptyO : Sftp := ⟨fun _ => ["/o/e.txt".toList], fun _ => some []⟩

def sEmptyN : Sftp := ⟨fun _ => ["/n/e.txt".toList], fun _ => some []⟩

/-- A session with a single file, unreadable, and an empty session. -/
def sOnlyO : Sftp := ⟨fun _ => ["/o/a.txt".toList], fun _ => none⟩

def sNone : Sftp := ⟨fun _ => [], fun _ => none⟩

/-! ### Invariants used to reason about the matcher -/

/-- Invariant of the running best of `find_longest_match` on the window
`[alo, ahi) × [blo, bhi)`: still the initial `(alo, blo, 0)`, or a
nonempty block lying inside the window. -/
def BestInv (alo ahi blo bhi : Nat) (best : Nat × Nat × Nat) : Prop :=
  best = (alo, blo, 0) ∨
    (0 < best.2.2 ∧ alo ≤ best.1 ∧ best.1 + best.2.2 ≤ ahi ∧
      blo ≤ best.2.1 ∧ best.2.1 + best.2.2 ≤ bhi)

/-- Well-formedness of a matching-block list: blocks are chained left to
right starting no earlier than `(lo1, lo2)` and ending no later than
`(hi1, hi2)`. -/
def BlocksWF (lo1 lo2 hi1 hi2 : Nat) : List (Nat × Nat × Nat) → Prop
  | [] => True
  | (i, j, k) :: rest =>
    lo1 ≤ i ∧ lo2 ≤ j ∧ i + k ≤ hi1 ∧ j + k ≤ hi2 ∧ BlocksWF (i + k) (j + k) hi1 hi2 rest

/-- The endpoint `(ai + size, bj + size)` of the last block, starting
from `e` (the value of `(i, j)` threaded through `get_opcodes`). -/
def blocksEnd : List (Nat × Nat × Nat) → Nat × Nat → Nat × Nat
  | [], e => e
  | (ai, bj, s) :: rest, _ => blocksEnd rest (ai + s, bj + s)

/-- An opcode list partitions `[i, ie) × [j, je)` into contiguous runs:
each opcode starts exactly where the previous one ended. -/
def OpChain : List Opcode → Nat → Nat → Nat → Nat → Prop
  | [], i, j, ie, je => i = ie ∧ j = je
  | op :: rest, i, j, ie, je =>
    op.i1 = i ∧ op.j1 = j ∧ i ≤ op.i2 ∧ j ≤ op.j2 ∧ OpChain rest op.i2 op.j2 ie je

/-- The shape each tag guarantees: an `equal` run pairs equally long
sub-runs, a `replace` run has both sides nonempty, a `delete` run has an
empty new side, an `insert` run an empty old side. -/
def TagOK (op : Opcode) : Prop :=
  (op.tag = "equal" ∧ op.i1 < op.i2 ∧ op.i2 - op.i1 = op.j2 - op.j1) ∨
  (op.tag = "replace" ∧ op.i1 < op.i2 ∧ op.j1 < op.j2) ∨
  (op.tag = "delete" ∧ op.i1 < op.i2 ∧ op.j1 = op.j2) ∨
  (op.tag = "insert" ∧ op.i1 = op.i2 ∧ op.j1 < op.j2)

/-- The length, on the diagonal, of the longest chain the inner loop of
`find_longest_match` can build at row/column `j` when `a` is compared
with itself: it grows along runs of lines that survive in `b2j` and
resets at a line purged as popular. -/
def diagRun (a : List Line) : Nat → Nat
  | 0 => if b2j a (a.getD 0 "") = [] then 0 else 1
  | j + 1 => if b2j a (a.getD (j + 1) "") = [] then 0 else diagRun a j + 1

/-! ## Lemmas about `rel_map` and `dictGet` -/

/-- Membership in the association list built by `rel_map`. -/
theorem mem_rel_map {files : List PyStr} {root : PyStr} {p : PyStr × PyStr} :
    p ∈ rel_map files root ↔
      ∃ f, f ∈ files ∧ ((rstripSlash root) ++ ['/']).isPrefixOf f = true ∧
        p = (f.drop ((rstripSlash root).length + 1), f) := by
  simp only [rel_map, List.mem_map, List.mem_filter]
  constructor
  · rintro ⟨f, ⟨hf, hpre⟩, rfl⟩
    exact ⟨f, hf, hpre, rfl⟩
  · rintro ⟨f, hf, hpre, rfl⟩
    exact ⟨f, ⟨hf, hpre⟩, rfl⟩

/-- Stripping the root prefix is injective on paths that carry it. -/
theorem strip_injective {r f g : PyStr}
    (hf : (r ++ ['/']).isPrefixOf f = true) (hg : (r ++ ['/']).isPrefixOf g = true)
    (h : f.drop (r.length + 1) = g.drop (r.length + 1)) : f = g := by
  rw [List.isPrefixOf_iff_prefix] at hf hg
  obtain ⟨tf, htf⟩ := hf
  obtain ⟨tg, htg⟩ := hg
  have hlen : (r ++ ['/']).length = r.length + 1 := by simp
  have hdf : f.drop (r.length + 1) = tf := by
    rw [← htf, ← hlen, List.drop_left]
  have hdg : g.drop (r.length + 1) = tg := by
    rw [← htg, ← hlen, List.drop_left]
  rw [← htf, ← htg, ← hdf, ← hdg, h]

/-- Any value stored by `rel_map` carries the `root + "/"` prefix and in
particular is a nonempty (hence truthy) string. -/
theorem rel_map_value_truthy {files : List PyStr} {root : PyStr} {p : PyStr × PyStr}
    (hp : p ∈ rel_map files root) : truthy (some p.2) = true := by
  obtain ⟨f, _, hpre, rfl⟩ := mem_rel_map.1 hp
  rw [List.isPrefixOf_iff_prefix] at hpre
  obtain ⟨t, ht⟩ := hpre
  cases hf : f with
  | nil => rw [hf] at ht; simp at ht
  | cons c cs => rfl

/-- `dictGet` only returns stored entries. -/
theorem dictGet_mem {d : List (PyStr × PyStr)} {k v : PyStr}
    (h : dictGet d k = some v) : (k, v) ∈ d := by
  have H : ∀ (e : List (PyStr × PyStr)) (acc : Option PyStr),
      e.foldl (fun acc p => if p.1 = k then some p.2 else acc) acc = some v →
      (k, v) ∈ e ∨ acc = some v := by
    intro e
    induction e with
    | nil => intro acc h'; exact Or.inr h'
    | cons p rest ih =>
      intro acc h'
      rw [List.foldl_cons] at h'
      rcases ih _ h' with h'' | h''
      · exact Or.inl (List.mem_cons_of_mem _ h'')
      · by_cases hk : p.1 = k
        · rw [if_pos hk] at h''
          have hv : p.2 = v := by injection h''
          have hpkv : p = (k, v) := by
            obtain ⟨a, b⟩ := p
            simp only [Prod.mk.injEq]
            exact ⟨hk, hv⟩
          rw [← hpkv]
          exact Or.inl (List.mem_cons_self _ _)
        · rw [if_neg hk] at h''
          exact Or.inr h''
  rcases H d none h with h' | h'
  · exact h'
  · exact Option.noConfusion h'

/-- On an association list whose keys determine their values, `dictGet`
finds every stored entry. -/
theorem dictGet_of_mem {d : List (PyStr × PyStr)} {k v : PyStr}
    (hmem : (k, v) ∈ d)
    (huniq : ∀ p ∈ d, ∀ q ∈ d, p.1 = q.1 → p.2 = q.2) :
    dictGet d k = some v := by
  have hstick : ∀ (e : List (PyStr × PyStr)), (∀ q ∈ e, q.1 = k → q.2 = v) →
      e.foldl (fun acc p => if p.1 = k then some p.2 else acc) (some v) = some v := by
    intro e
    induction e with
    | nil => intro _; rfl
    | cons q rest ih =>
      intro hq
      rw [List.foldl_cons]
      by_cases hk : q.1 = k
      · have hv : q.2 = v := hq q (List.mem_cons_self _ _) hk
        rw [if_pos hk, hv]
        exact ih fun r hr => hq r (List.mem_cons_of_mem _ hr)
      · rw [if_neg hk]
        exact ih fun r hr => hq r (List.mem_cons_of_mem _ hr)
  have H : ∀ (e : List (PyStr × PyStr)), (k, v) ∈ e →
      (∀ p ∈ e, ∀ q ∈ e, p.1 = q.1 → p.2 = q.2) →
      ∀ acc, e.foldl (fun acc p => if p.1 = k then some p.2 else acc) acc = some v := by
    intro e
    induction e with
    | nil => intro hm; cases hm
    | cons p rest ih =>
      intro hm hu acc
      rw [List.foldl_cons]
      rcases List.mem_cons.1 hm with hp | hp
      · cases hp
        rw [if_pos rfl]
        exact hstick rest fun q hq hqk =>
          hu q (List.mem_cons_of_mem _ hq) (k, v) (List.mem_cons_self _ _) hqk
      · exact ih hp (fun p' hp' q' hq' =>
          hu p' (List.mem_cons_of_mem _ hp') q' (List.mem_cons_of_mem _ hq')) _
  exact H d hmem huniq none

/-- In a `rel_map` index, entries sharing a key have equal values. -/
theorem rel_map_key_determines {files : List PyStr} {root : PyStr}
    {p q : PyStr × PyStr} (hp : p ∈ rel_map files root) (hq : q ∈ rel_map files root)
    (h : p.1 = q.1) : p.2 = q.2 := by
  obtain ⟨f, _, hpf, rfl⟩ := mem_rel_map.1 hp
  obtain ⟨g, _, hpg, rfl⟩ := mem_rel_map.1 hq
  exact strip_injective hpf hpg h

/-! ## Lemmas about the sorted union of key sets -/

theorem strLt_irrefl : ∀ s : PyStr, strLt s s = false
  | [] => rfl
  | c :: s => by
    rw [strLt, if_pos rfl]
    exact strLt_irrefl s

theorem strLt_trans : ∀ {x y z : PyStr},
    strLt x y = true → strLt y z = true → strLt x z = true
  | [], [], _, hxy, _ => by cases hxy
  | [], _ :: _, [], _, hyz => by cases hyz
  | [], _ :: _, _ :: _, _, _ => rfl
  | _ :: _, [], _, hxy, _ => by cases hxy
  | _ :: _, _ :: _, [], _, hyz => by cases hyz
  | c :: s, d :: t, e :: u, hxy, hyz => by
    rw [strLt] at hxy hyz ⊢
    by_cases hcd : c = d
    · rw [if_pos hcd] at hxy
      by_cases hde : d = e
      · rw [if_pos hde] at hyz
        rw [if_pos (hcd.trans hde)]
        exact strLt_trans hxy hyz
      · rw [if_neg hde] at hyz
        have hce : ¬ c = e := fun h => hde (hcd ▸ h)
        rw [if_neg hce]
        rw [hcd]
        exact hyz
    · rw [if_neg hcd] at hxy
      have hcd' : c < d := of_decide_eq_true hxy
      by_cases hde : d = e
      · have hce : ¬ c = e := fun h => hcd (h.trans hde.symm)
        rw [if_neg hce]
        rw [← hde]
        exact hxy
      · rw [if_neg hde] at hyz
        have hde' : d < e := of_decide_eq_true hyz
        have hce' : c < e := lt_trans hcd' hde'
        have hce : ¬ c = e := ne_of_lt hce'
        rw [if_neg hce]
        exact decide_eq_true hce'

theorem strLt_connex : ∀ x y : PyStr, x = y ∨ strLt x y = true ∨ strLt y x = true
  | [], [] => Or.inl rfl
  | [], _ :: _ => Or.inr (Or.inl rfl)
  | _ :: _, [] => Or.inr (Or.inr rfl)
  | c :: s, d :: t => by
    by_cases hcd : c = d
    · rcases strLt_connex s t with h | h | h
      · exact Or.inl (by rw [hcd, h])
      · refine Or.inr (Or.inl ?_)
        rw [strLt, if_pos hcd]; exact h
      · refine Or.inr (Or.inr ?_)
        rw [strLt, if_pos hcd.symm]
        exact h
    · rcases lt_or_gt_of_ne hcd with h | h
      · refine Or.inr (Or.inl ?_)
        rw [strLt, if_neg hcd]
        exact decide_eq_true h
      · refine Or.inr (Or.inr ?_)
        rw [strLt, if_neg (fun hdc => hcd hdc.symm)]
        exact decide_eq_true h

theorem mem_insSorted {x z : PyStr} : ∀ {ys : List PyStr},
    z ∈ insSorted x ys ↔ z = x ∨ z ∈ ys
  | [] => by simp [insSorted]
  | y :: ys => by
    rw [insSorted]
    by_cases h1 : strLt x y = true
    · rw [if_pos h1]
      simp only [List.mem_cons]
    · rw [if_neg h1]
      by_cases h2 : x = y
      · rw [if_pos h2]
        simp only [List.mem_cons]
        constructor
        · tauto
        · rintro (rfl | h)
          · exact Or.inl h2
          · exact h
      · rw [if_neg h2]
        simp only [List.mem_cons, @mem_insSorted x z ys]
        tauto

theorem pairwise_insSorted {x : PyStr} : ∀ {ys : List PyStr},
    ys.Pairwise (fun a b => strLt a b = true) →
    (insSorted x ys).Pairwise (fun a b => strLt a b = true)
  | [], _ => by simp [insSorted]
  | y :: ys, h => by
    rw [List.pairwise_cons] at h
    rw [insSorted]
    by_cases h1 : strLt x y = true
    · rw [if_pos h1]
      refine List.Pairwise.cons ?_ (List.Pairwise.cons h.1 h.2)
      intro z hz
      rcases List.mem_cons.1 hz with rfl | hz
      · exact h1
      · exact strLt_trans h1 (h.1 z hz)
    · rw [if_neg h1]
      by_cases h2 : x = y
      · rw [if_pos h2]
        exact List.Pairwise.cons h.1 h.2
      · rw [if_neg h2]
        have hyx : strLt y x = true := by
          rcases strLt_connex x y with h3 | h3 | h3
          · exact absurd h3 h2
          · exact absurd h3 h1
          · exact h3
        refine List.Pairwise.cons ?_ (pairwise_insSorted h.2)
        intro z hz
        rcases mem_insSorted.1 hz with rfl | hz
        · exact hyx
        · exact h.1 z hz

theorem mem_sortedDistinct {z : PyStr} : ∀ {xs : List PyStr},
    z ∈ sortedDistinct xs ↔ z ∈ xs
  | [] => Iff.rfl
  | x :: xs => by
    show z ∈ insSorted x (sortedDistinct xs) ↔ _
    rw [mem_insSorted, @mem_sortedDistinct z xs]
    simp [List.mem_cons]

theorem pairwise_sortedDistinct : ∀ (xs : List PyStr),
    (sortedDistinct xs).Pairwise (fun a b => strLt a b = true)
  | [] => List.Pairwise.nil
  | _ :: xs => pairwise_insSorted (pairwise_sortedDistinct xs)

/-! ## Lemmas about the `compare_folders` loop -/

theorem comparePaths_diffs (so sn : Sftp) (fo fn : List (PyStr × PyStr)) (ip : List PyStr)
    (hi hp : Bool) : ∀ (l : List PyStr) (i total : Nat),
    (comparePaths so sn fo fn ip hi hp l i total).diffs =
      l.bind (fun rel => (processPath so sn fo fn ip hi rel).recs)
  | [], _, _ => rfl
  | rel :: rest, i, total => by
    show _ ++ _ = _ ++ _
    rw [comparePaths_diffs so sn fo fn ip hi hp rest (i + 1) total]
    rfl

theorem comparePaths_reads (so sn : Sftp) (fo fn : List (PyStr × PyStr)) (ip : List PyStr)
    (hi hp : Bool) : ∀ (l : List PyStr) (i total : Nat),
    (comparePaths so sn fo fn ip hi hp l i total).reads =
      l.bind (fun rel => (processPath so sn fo fn ip hi rel).reads)
  | [], _, _ => rfl
  | rel :: rest, i, total => by
    show _ ++ _ = _ ++ _
    rw [comparePaths_reads so sn fo fn ip hi hp rest (i + 1) total]
    rfl

theorem comparePaths_progress (so sn : Sftp) (fo fn : List (PyStr × PyStr)) (ip : List PyStr)
    (hi : Bool) : ∀ (l : List PyStr) (i total : Nat),
    (comparePaths so sn fo fn ip hi true l i total).progress =
      ((List.range' i l.length).zip l).map (fun p => (p.1, total, p.2))
  | [], _, _ => rfl
  | rel :: rest, i, total => by
    rw [List.length_cons, List.range'_succ, List.zip_cons_cons, List.map_cons,
      ← comparePaths_progress so sn fo fn ip hi rest (i + 1) total]
    rfl

/-- With `hide_ignored = False` every branch of the loop body emits exactly
one record, keyed by the path being handled. -/
theorem processPath_recs_fst (so sn : Sftp) (fo fn : List (PyStr × PyStr))
    (ip : List PyStr) (rel : PyStr) :
    (processPath so sn fo fn ip false rel).recs.map Prod.fst = [rel] := by
  rw [processPath]
  by_cases h1 : should_ignore rel ip = true
  · rw [if_pos h1]; rfl
  · rw [if_neg h1]
    by_cases h2 : (truthy (dictGet fo rel) && !truthy (dictGet fn rel)) = true
    · rw [if_pos h2]; rfl
    · rw [if_neg h2]
      by_cases h3 : (truthy (dictGet fn rel) && !truthy (dictGet fo rel)) = true
      · rw [if_pos h3]; rfl
      · rw [if_neg h3]
        by_cases h4 : read_file_lines so (dictGet fo rel) = none ∨
            read_file_lines sn (dictGet fn rel) = none
        · rw [if_pos h4]; rfl
        · rw [if_neg h4]; rfl

/-- Every record emitted by the loop body carries one of the five status
strings, and a record whose status is not `"Side-by-side diff"` has an
empty diff-lines list. -/
theorem processPath_recs_status (so sn : Sftp) (fo fn : List (PyStr × PyStr))
    (ip : List PyStr) (hi : Bool) (rel : PyStr) :
    ∀ d ∈ (processPath so sn fo fn ip hi rel).recs,
      (d.2.1 = "Ignored (pattern)" ∨ d.2.1 = "Only in Old Folder" ∨
        d.2.1 = "Only in New Folder" ∨ d.2.1 = "Binary or unreadable file" ∨
        d.2.1 = "Side-by-side diff") ∧
      (d.2.1 ≠ "Side-by-side diff" → d.2.2 = []) := by
  intro d hd
  rw [processPath] at hd
  by_cases h1 : should_ignore rel ip = true
  · rw [if_pos h1] at hd
    rcases hi with _ | _
    · rcases List.mem_singleton.1 hd with rfl
      exact ⟨Or.inl rfl, fun _ => rfl⟩
    · cases hd
  · rw [if_neg h1] at hd
    by_cases h2 : (truthy (dictGet fo rel) && !truthy (dictGet fn rel)) = true
    · rw [if_pos h2] at hd
      rcases List.mem_singleton.1 hd with rfl
      exact ⟨Or.inr (Or.inl rfl), fun _ => rfl⟩
    · rw [if_neg h2] at hd
      by_cases h3 : (truthy (dictGet fn rel) && !truthy (dictGet fo rel)) = true
      · rw [if_pos h3] at hd
        rcases List.mem_singleton.1 hd with rfl
        exact ⟨Or.inr (Or.inr (Or.inl rfl)), fun _ => rfl⟩
      · rw [if_neg h3] at hd
        by_cases h4 : read_file_lines so (dictGet fo rel) = none ∨
            read_file_lines sn (dictGet fn rel) = none
        · rw [if_pos h4] at hd
          rcases List.mem_singleton.1 hd with rfl
          exact ⟨Or.inr (Or.inr (Or.inr (Or.inl rfl))), fun _ => rfl⟩
        · rw [if_neg h4] at hd
          rcases List.mem_singleton.1 hd with rfl
          refine ⟨Or.inr (Or.inr (Or.inr (Or.inr rfl))), fun h => absurd rfl h⟩

/-- Mapping `Prod.fst` over the records of one run with
`hide_ignored = False` recovers the reconciled path list. -/
theorem diffs_map_fst (so sn : Sftp) (fo fn : List (PyStr × PyStr)) (ip : List PyStr) :
    ∀ l : List PyStr,
      (l.bind fun rel => (processPath so sn fo fn ip false rel).recs).map Prod.fst = l
  | [] => rfl
  | rel :: rest => by
    show ((processPath so sn fo fn ip false rel).recs ++
      rest.bind fun r => (processPath so sn fo fn ip false r).recs).map Prod.fst = rel :: rest
    rw [List.map_append, processPath_recs_fst, diffs_map_fst so sn fo fn ip rest]
    rfl

/-! ## Claim theorems: the folder-comparison orchestrator -/

/-- C4: building a TreeIndex (`rel_map`) from a flat absolute-path listing
and a root binds exactly the listed paths that start with the (slash-
stripped) root followed by one separator: such a path is stored under the
key obtained by stripping that prefix, with the path itself as value, and
a listed path without that prefix contributes no entry at all. -/
theorem claim_C4 (files : List PyStr) (root : PyStr) (k v : PyStr) :
    dictGet (rel_map files root) k = some v ↔
      ∃ f, f ∈ files ∧ ((rstripSlash root) ++ ['/']).isPrefixOf f = true ∧
        f.drop ((rstripSlash root).length + 1) = k ∧ v = f := by
  constructor
  · intro h
    obtain ⟨f, hf, hpre, heq⟩ := mem_rel_map.1 (dictGet_mem h)
    rw [Prod.mk.injEq] at heq
    exact ⟨f, hf, hpre, heq.1.symm, heq.2⟩
  · rintro ⟨f, hf, hpre, hk, hv⟩
    rw [hv, ← hk]
    exact dictGet_of_mem (mem_rel_map.2 ⟨f, hf, hpre, rfl⟩)
      (fun p hp q hq => rel_map_key_determines hp hq)

/-- C5: two entries of a TreeIndex with the same relative key always hold
the same absolute path (stripping the root prefix is injective, so a
flat listing can never make two distinct absolute paths collide on one
key, and no stored entry is ever overwritten by a different value). -/
theorem claim_C5 (files : List PyStr) (root : PyStr) (p q : PyStr × PyStr)
    (hp : p ∈ rel_map files root) (hq : q ∈ rel_map files root)
    (hk : p.1 = q.1) : p.2 = q.2 :=
  rel_map_key_determines hp hq hk

theorem claim_C5_witness :
    ("a.txt".toList, "/o/a.txt".toList) ∈ rel_map ["/o/a.txt".toList, "/o/b.txt".toList] "/o".toList ∧
    (("a.txt".toList, "/o/a.txt".toList) : PyStr × PyStr).2 =
      ("a.txt".toList, "/o/a.txt".toList).2 :=
  ⟨by decide,
   claim_C5 ["/o/a.txt".toList, "/o/b.txt".toList] "/o".toList _ _ (by decide) (by decide) rfl⟩

/-- C6: an ignored relative path never triggers a content read: its loop
iteration performs no `read_file_lines` call at all (whatever
`hide_ignored` is), and the whole read trace of `compare_folders` is the
concatenation of the per-path read traces. -/
theorem claim_C6 (so sn : Sftp) (folder_old folder_new : PyStr) (ip : List PyStr)
    (hi hp : Bool) (rel : PyStr) (hig : should_ignore rel ip = true) :
    (processPath so sn (treeIndex so folder_old) (treeIndex sn folder_new) ip hi rel).reads
      = [] ∧
    (compare_folders so sn folder_old folder_new ip hi hp).reads =
      (allFilesOf so sn folder_old folder_new).bind
        (fun r => (processPath so sn (treeIndex so folder_old) (treeIndex sn folder_new)
          ip hi r).reads) := by
  constructor
  · rw [processPath, if_pos hig]
  · simp only [compare_folders, treeIndex]
    exact comparePaths_reads so sn _ _ ip hi hp _ 1 _

theorem claim_C6_witness :
    should_ignore "x.bin".toList ["*.bin".toList] = true ∧
    (processPath sA sB (treeIndex sA "/o".toList) (treeIndex sB "/n".toList)
      ["*.bin".toList] false "x.bin".toList).reads = [] :=
  ⟨by decide,
   (claim_C6 sA sB "/o".toList "/n".toList ["*.bin".toList] false false "x.bin".toList
     (by decide)).1⟩

/-- C7: with a progress callback supplied, `compare_folders` invokes it
exactly once per reconciled relative path, in order, with arguments
`(processedCount, totalCount, currentPath)` where `totalCount` is the
size of the sorted union of the two key sets and `processedCount` counts
up from 1. -/
theorem claim_C7 (so sn : Sftp) (folder_old folder_new : PyStr) (ip : List PyStr)
    (hi : Bool) :
    (compare_folders so sn folder_old folder_new ip hi true).progress =
      ((List.range' 1 (allFilesOf so sn folder_old folder_new).length).zip
        (allFilesOf so sn folder_old folder_new)).map
        (fun p => (p.1, (allFilesOf so sn folder_old folder_new).length, p.2)) ∧
    (compare_folders so sn folder_old folder_new ip hi true).progress.length =
      (allFilesOf so sn folder_old folder_new).length := by
  have h := comparePaths_progress so sn (rel_map (list_files so folder_old) folder_old)
    (rel_map (list_files sn folder_new) folder_new) ip hi
    (allFilesOf so sn folder_old folder_new) 1 (allFilesOf so sn folder_old folder_new).length
  refine ⟨h, ?_⟩
  rw [show (compare_folders so sn folder_old folder_new ip hi true).progress =
    ((List.range' 1 (allFilesOf so sn folder_old folder_new).length).zip
      (allFilesOf so sn folder_old folder_new)).map
      (fun p => (p.1, (allFilesOf so sn folder_old folder_new).length, p.2)) from h]
  simp [List.length_zip]

/-- C8: with `hide_ignored = False`, `compare_folders` returns exactly one
record per path in the sorted union of the two key sets, in that
(strictly sorted) order, each carrying one of the five classification
strings. -/
theorem claim_C8 (so sn : Sftp) (folder_old folder_new : PyStr) (ip : List PyStr)
    (hp : Bool) :
    (compare_folders so sn folder_old folder_new ip false hp).diffs.map Prod.fst =
      allFilesOf so sn folder_old folder_new ∧
    (compare_folders so sn folder_old folder_new ip false hp).diffs.length =
      (allFilesOf so sn folder_old folder_new).length ∧
    (allFilesOf so sn folder_old folder_new).Pairwise (fun a b => strLt a b = true) ∧
    (∀ k : PyStr, k ∈ allFilesOf so sn folder_old folder_new ↔
      (k ∈ (treeIndex so folder_old).map Prod.fst ∨
        k ∈ (treeIndex sn folder_new).map Prod.fst)) ∧
    ∀ d ∈ (compare_folders so sn folder_old folder_new ip false hp).diffs,
      d.2.1 = "Ignored (pattern)" ∨ d.2.1 = "Only in Old Folder" ∨
      d.2.1 = "Only in New Folder" ∨ d.2.1 = "Binary or unreadable file" ∨
      d.2.1 = "Side-by-side diff" := by
  have hfst : (compare_folders so sn folder_old folder_new ip false hp).diffs.map Prod.fst =
      allFilesOf so sn folder_old folder_new := by
    simp only [compare_folders]
    rw [comparePaths_diffs]
    exact diffs_map_fst so sn _ _ ip _
  refine ⟨hfst, ?_, pairwise_sortedDistinct _, ?_, ?_⟩
  · rw [← hfst, List.length_map]
  · intro k
    simp only [allFilesOf, treeIndex, mem_sortedDistinct, List.mem_append]
  · intro d hd
    simp only [compare_folders] at hd
    rw [comparePaths_diffs] at hd
    obtain ⟨rel, _, hd'⟩ := List.mem_bind.1 hd
    exact (processPath_recs_status so sn _ _ ip false rel d hd').1

theorem claim_C8_witness :
    (compare_folders sA sB "/o".toList "/n".toList ["*.bin".toList] false false).diffs.map
      Prod.fst = allFilesOf sA sB "/o".toList "/n".toList ∧
    (("x.bin".toList, "Ignored (pattern)", []) : Record) ∈
      (compare_folders sA sB "/o".toList "/n".toList ["*.bin".toList] false false).diffs ∧
    ((("x.bin".toList, "Ignored (pattern)", []) : Record).2.1 = "Ignored (pattern)" ∨
      (("x.bin".toList, "Ignored (pattern)", []) : Record).2.1 = "Only in Old Folder" ∨
      (("x.bin".toList, "Ignored (pattern)", []) : Record).2.1 = "Only in New Folder" ∨
      (("x.bin".toList, "Ignored (pattern)", []) : Record).2.1 = "Binary or unreadable file" ∨
      (("x.bin".toList, "Ignored (pattern)", []) : Record).2.1 = "Side-by-side diff") :=
  ⟨(claim_C8 sA sB "/o".toList "/n".toList ["*.bin".toList] false).1,
   by decide,
   (claim_C8 sA sB "/o".toList "/n".toList ["*.bin".toList] false).2.2.2.2 _ (by decide)⟩

/-- C9: for a path present on both sides, a failing read on either side
yields classification `"Binary or unreadable file"` with no aligned
lines, while two successful empty reads (`some []`, distinguishable from
the failure marker `none`) yield classification `"Side-by-side diff"`
with an empty diff. -/
theorem claim_C9 (so sn : Sftp) (folder_old folder_new : PyStr) (ip : List PyStr)
    (hi : Bool) (rel po pn : PyStr)
    (hig : should_ignore rel ip = false)
    (hpo : dictGet (treeIndex so folder_old) rel = some po)
    (hpn : dictGet (treeIndex sn folder_new) rel = some pn) :
    ((so.read po = none ∨ sn.read pn = none) →
      (processPath so sn (treeIndex so folder_old) (treeIndex sn folder_new) ip hi rel).recs
        = [(rel, "Binary or unreadable file", [])]) ∧
    (so.read po = some [] → sn.read pn = some [] →
      (processPath so sn (treeIndex so folder_old) (treeIndex sn folder_new) ip hi rel).recs
        = [(rel, "Side-by-side diff", [])]) ∧
    (some ([] : List Line) ≠ (none : Option (List Line))) := by
  have hto : truthy (dictGet (treeIndex so folder_old) rel) = true := by
    rw [hpo]
    exact rel_map_value_truthy (p := (rel, po)) (dictGet_mem hpo)
  have htn : truthy (dictGet (treeIndex sn folder_new) rel) = true := by
    rw [hpn]
    exact rel_map_value_truthy (p := (rel, pn)) (dictGet_mem hpn)
  have hc2 : ¬ ((truthy (dictGet (treeIndex so folder_old) rel) &&
      !truthy (dictGet (treeIndex sn folder_new) rel)) = true) := by
    rw [hto, htn]; decide
  have hc3 : ¬ ((truthy (dictGet (treeIndex sn folder_new) rel) &&
      !truthy (dictGet (treeIndex so folder_old) rel)) = true) := by
    rw [hto, htn]; decide
  have hig' : ¬ (should_ignore rel ip = true) := by rw [hig]; decide
  refine ⟨?_, ?_, by decide⟩
  · intro hfail
    rw [processPath, if_neg hig', if_neg hc2, if_neg hc3, if_pos]
    rw [hpo, hpn]
    rcases hfail with h | h
    · exact Or.inl (by rw [read_file_lines, h])
    · exact Or.inr (by rw [read_file_lines, h])
  · intro hro hrn
    rw [processPath, if_neg hig', if_neg hc2, if_neg hc3, if_neg, hpo, hpn]
    · rw [show read_file_lines so (some po) = some [] from by rw [read_file_lines, hro],
        show read_file_lines sn (some pn) = some [] from by rw [read_file_lines, hrn]]
      rfl
    · rw [hpo, hpn,
        show read_file_lines so (some po) = some [] from by rw [read_file_lines, hro],
        show read_file_lines sn (some pn) = some [] from by rw [read_file_lines, hrn]]
      rintro (h | h) <;> cases h

theorem claim_C9_witness :
    (processPath sFailO sFailN (treeIndex sFailO "/o".toList) (treeIndex sFailN "/n".toList)
      [] false "e.txt".toList).recs = [("e.txt".toList, "Binary or unreadable file", [])] ∧
    (processPath sEmptyO sEmptyN (treeIndex sEmptyO "/o".toList) (treeIndex sEmptyN "/n".toList)
      [] false "e.txt".toList).recs = [("e.txt".toList, "Side-by-side diff", [])] :=
  ⟨(claim_C9 sFailO sFailN "/o".toList "/n".toList [] false "e.txt".toList
      "/o/e.txt".toList "/n/e.txt".toList (by decide) (by decide) (by decide)).1
      (Or.inl rfl),
   (claim_C9 sEmptyO sEmptyN "/o".toList "/n".toList [] false "e.txt".toList
      "/o/e.txt".toList "/n/e.txt".toList (by decide) (by decide) (by decide)).2.1 rfl rfl⟩

/-- C10: every record whose classification is not `"Side-by-side diff"`
carries an empty aligned-lines list. -/
theorem claim_C10 (so sn : Sftp) (folder_old folder_new : PyStr) (ip : List PyStr)
    (hi hp : Bool) (d : Record)
    (hd : d ∈ (compare_folders so sn folder_old folder_new ip hi hp).diffs)
    (hstat : d.2.1 ≠ "Side-by-side diff") : d.2.2 = [] := by
  simp only [compare_folders] at hd
  rw [comparePaths_diffs] at hd
  obtain ⟨rel, _, hd'⟩ := List.mem_bind.1 hd
  exact (processPath_recs_status so sn _ _ ip hi rel d hd').2 hstat

/-! ## Window bounds of `find_longest_match` -/

/-- The inner loop keeps `newj2len` bounded by the number of processed
rows and by the distance to `blo`, and keeps the best block inside the
window. -/
theorem innerLoop_inv {alo ahi blo bhi i : Nat} {f : Nat → Nat}
    (hi1 : alo ≤ i) (hi2 : i < ahi)
    (hf : ∀ j', f j' ≤ i - alo ∧ f j' ≤ j' + 1 - blo) :
    ∀ (js : List Nat) (g : Nat → Nat) (best : Nat × Nat × Nat),
    (∀ j', g j' ≤ i + 1 - alo ∧ g j' ≤ j' + 1 - blo) →
    BestInv alo ahi blo bhi best →
    (∀ j', (innerLoop blo bhi i f js g best).1 j' ≤ i + 1 - alo ∧
      (innerLoop blo bhi i f js g best).1 j' ≤ j' + 1 - blo) ∧
    BestInv alo ahi blo bhi (innerLoop blo bhi i f js g best).2
  | [], g, best => fun hg hb => ⟨hg, hb⟩
  | j :: js, g, best => fun hg hb => by
    simp only [innerLoop]
    by_cases h1 : j < blo
    · rw [if_pos h1]
      exact innerLoop_inv hi1 hi2 hf js g best hg hb
    · rw [if_neg h1]
      by_cases h2 : bhi ≤ j
      · rw [if_pos h2]
        exact ⟨hg, hb⟩
      · rw [if_neg h2]
        have hk1 : (if j = 0 then 0 else f (j - 1)) + 1 ≤ i + 1 - alo := by
          by_cases hj0 : j = 0
          · rw [if_pos hj0]; omega
          · rw [if_neg hj0]
            have := (hf (j - 1)).1
            omega
        have hk2 : (if j = 0 then 0 else f (j - 1)) + 1 ≤ j + 1 - blo := by
          by_cases hj0 : j = 0
          · rw [if_pos hj0]
            omega
          · rw [if_neg hj0]
            have := (hf (j - 1)).2
            omega
        have hg' : ∀ j', (fun j' => if j' = j then (if j = 0 then 0 else f (j - 1)) + 1
            else g j') j' ≤ i + 1 - alo ∧
            (fun j' => if j' = j then (if j = 0 then 0 else f (j - 1)) + 1 else g j') j'
              ≤ j' + 1 - blo := by
          intro j'
          by_cases hj' : j' = j
          · simp only [if_pos hj']
            exact ⟨hk1, hj' ▸ hk2⟩
          · simp only [if_neg hj']
            exact hg j'
        by_cases h3 : best.2.2 < (if j = 0 then 0 else f (j - 1)) + 1
        · rw [if_pos h3]
          refine innerLoop_inv hi1 hi2 hf js _ _ hg' (Or.inr ⟨?_, ?_, ?_, ?_, ?_⟩)
          · show 0 < (if j = 0 then 0 else f (j - 1)) + 1
            omega
          · show alo ≤ i + 1 - ((if j = 0 then 0 else f (j - 1)) + 1)
            omega
          · show i + 1 - ((if j = 0 then 0 else f (j - 1)) + 1) +
              ((if j = 0 then 0 else f (j - 1)) + 1) ≤ ahi
            omega
          · show blo ≤ j + 1 - ((if j = 0 then 0 else f (j - 1)) + 1)
            omega
          · show j + 1 - ((if j = 0 then 0 else f (j - 1)) + 1) +
              ((if j = 0 then 0 else f (j - 1)) + 1) ≤ bhi
            omega
        · rw [if_neg h3]
          exact innerLoop_inv hi1 hi2 hf js _ _ hg' hb

/-- The row loop keeps the best block inside the window. -/
theorem rows_inv {a : List Line} {bj : Line → List Nat} {alo ahi blo bhi : Nat} :
    ∀ (cnt i : Nat) (f : Nat → Nat) (best : Nat × Nat × Nat),
    alo ≤ i → (cnt = 0 ∨ i + cnt ≤ ahi) →
    (∀ j', f j' ≤ i - alo ∧ f j' ≤ j' + 1 - blo) →
    BestInv alo ahi blo bhi best →
    BestInv alo ahi blo bhi (rows a bj blo bhi (List.range' i cnt) f best)
  | 0, i, f, best => fun _ _ _ hb => hb
  | cnt + 1, i, f, best => fun h1 h2 hf hb => by
    rw [List.range'_succ]
    have hi2 : i < ahi := by omega
    have h := @innerLoop_inv alo ahi blo bhi i f h1 hi2 hf
      (bj (a.getD i "")) (fun _ => 0) best
      (fun j' => ⟨Nat.zero_le _, Nat.zero_le _⟩) hb
    rw [rows]
    refine rows_inv cnt (i + 1) _ _ (by omega) (by omega) ?_ h.2
    intro j'
    have := h.1 j'
    omega

/-- The backward extension loop keeps the best block inside the window. -/
theorem extendBack_inv {a b : List Line} {alo ahi blo bhi : Nat} :
    ∀ (bi bj bs : Nat), BestInv alo ahi blo bhi (bi, bj, bs) →
      BestInv alo ahi blo bhi (extendBack a b alo blo bi bj bs)
  | 0, bj, bs => fun hb => hb
  | bi + 1, bj, bs => fun hb => by
    rw [extendBack]
    by_cases hc : alo < bi + 1 ∧ blo < bj ∧ a.getD bi "" = b.getD (bj - 1) ""
    · rw [if_pos hc]
      obtain ⟨hc1, hc2, _⟩ := hc
      refine extendBack_inv bi (bj - 1) (bs + 1) (Or.inr ?_)
      show 0 < bs + 1 ∧ alo ≤ bi ∧ bi + (bs + 1) ≤ ahi ∧ blo ≤ bj - 1 ∧
        bj - 1 + (bs + 1) ≤ bhi
      rcases hb with hb | hb
      · rw [Prod.mk.injEq, Prod.mk.injEq] at hb
        omega
      · have hb' : 0 < bs ∧ alo ≤ bi + 1 ∧ bi + 1 + bs ≤ ahi ∧ blo ≤ bj ∧
            bj + bs ≤ bhi := hb
        omega
    · rw [if_neg hc]
      exact hb

/-- The forward extension loop keeps the best block inside the window. -/
theorem extendFwd_inv {a b : List Line} {alo ahi blo bhi : Nat} :
    ∀ (fuel bi bj bs : Nat), BestInv alo ahi blo bhi (bi, bj, bs) →
      BestInv alo ahi blo bhi (bi, bj, extendFwdAux a b ahi bhi bi bj fuel bs)
  | 0, bi, bj, bs => fun hb => hb
  | fuel + 1, bi, bj, bs => fun hb => by
    rw [extendFwdAux]
    by_cases hc : bi + bs < ahi ∧ bj + bs < bhi ∧ a.getD (bi + bs) "" = b.getD (bj + bs) ""
    · rw [if_pos hc]
      obtain ⟨hc1, hc2, _⟩ := hc
      refine extendFwd_inv fuel bi bj (bs + 1) (Or.inr ?_)
      show 0 < bs + 1 ∧ alo ≤ bi ∧ bi + (bs + 1) ≤ ahi ∧ blo ≤ bj ∧ bj + (bs + 1) ≤ bhi
      rcases hb with hb | hb
      · rw [Prod.mk.injEq, Prod.mk.injEq] at hb
        omega
      · have hb' : 0 < bs ∧ alo ≤ bi ∧ bi + bs ≤ ahi ∧ blo ≤ bj ∧ bj + bs ≤ bhi := hb
        omega
    · rw [if_neg hc]
      exact hb

/-- The result of `find_longest_match` satisfies the window invariant. -/
theorem flm_inv (a b : List Line) (alo ahi blo bhi : Nat) :
    BestInv alo ahi blo bhi (find_longest_match a b alo ahi blo bhi) := by
  rw [find_longest_match]
  have h1 : BestInv alo ahi blo bhi
      (rows a (b2j b) blo bhi (List.range' alo (ahi - alo)) (fun _ => 0) (alo, blo, 0)) :=
    rows_inv (ahi - alo) alo _ _ (le_refl alo) (by omega) (by intro j'; omega) (Or.inl rfl)
  have h2 := @extendBack_inv a b alo ahi blo bhi
    (rows a (b2j b) blo bhi (List.range' alo (ahi - alo)) (fun _ => 0) (alo, blo, 0)).1
    (rows a (b2j b) blo bhi (List.range' alo (ahi - alo)) (fun _ => 0) (alo, blo, 0)).2.1
    (rows a (b2j b) blo bhi (List.range' alo (ahi - alo)) (fun _ => 0) (alo, blo, 0)).2.2
    h1
  exact extendFwd_inv ahi _ _ _ h2

/-- A nonempty match found by `find_longest_match` lies in the window. -/
theorem flm_bounds {a b : List Line} {alo ahi blo bhi : Nat}
    (h : 0 < (find_longest_match a b alo ahi blo bhi).2.2) :
    alo ≤ (find_longest_match a b alo ahi blo bhi).1 ∧
    (find_longest_match a b alo ahi blo bhi).1 +
      (find_longest_match a b alo ahi blo bhi).2.2 ≤ ahi ∧
    blo ≤ (find_longest_match a b alo ahi blo bhi).2.1 ∧
    (find_longest_match a b alo ahi blo bhi).2.1 +
      (find_longest_match a b alo ahi blo bhi).2.2 ≤ bhi := by
  rcases flm_inv a b alo ahi blo bhi with hb | hb
  · rw [hb] at h
    exact absurd (show (0 : Nat) < 0 from h) (lt_irrefl 0)
  · exact ⟨hb.2.1, hb.2.2.1, hb.2.2.2.1, hb.2.2.2.2⟩

/-! ## Well-formedness of the matching-block list -/

theorem blocksWF_mono {lo1 lo2 lo1' lo2' hi1 hi2 : Nat} {bs : List (Nat × Nat × Nat)}
    (h1 : lo1' ≤ lo1) (h2 : lo2' ≤ lo2) (h : BlocksWF lo1 lo2 hi1 hi2 bs) :
    BlocksWF lo1' lo2' hi1 hi2 bs := by
  cases bs with
  | nil => trivial
  | cons b rest =>
    obtain ⟨i, j, k⟩ := b
    obtain ⟨ha, hb', hc, hd, he⟩ := h
    exact ⟨le_trans h1 ha, le_trans h2 hb', hc, hd, he⟩

theorem blocksWF_append {lo1 lo2 m1 m2 hi1 hi2 : Nat} :
    ∀ {L R : List (Nat × Nat × Nat)},
    BlocksWF lo1 lo2 m1 m2 L → BlocksWF m1 m2 hi1 hi2 R →
    m1 ≤ hi1 → m2 ≤ hi2 → lo1 ≤ m1 → lo2 ≤ m2 →
    BlocksWF lo1 lo2 hi1 hi2 (L ++ R)
  | [], R => fun _ hR _ _ h5 h6 => by
    rw [List.nil_append]
    exact blocksWF_mono h5 h6 hR
  | (i, j, k) :: L', R => fun hL hR h3 h4 h5 h6 => by
    obtain ⟨ha, hb', hc, hd, he⟩ := hL
    exact ⟨ha, hb', le_trans hc h3, le_trans hd h4,
      blocksWF_append he hR h3 h4 hc hd⟩

/-- The recursive pass of `get_matching_blocks` produces a chained block
list inside its window, provided the fuel exceeds the window measure. -/
theorem mblocksF_wf (a b : List Line) :
    ∀ (fuel alo ahi blo bhi : Nat),
    (ahi - alo) + (bhi - blo) < fuel → alo ≤ ahi → blo ≤ bhi →
    BlocksWF alo blo ahi bhi (mblocksF a b fuel alo ahi blo bhi)
  | 0, alo, ahi, blo, bhi => fun hm _ _ => absurd hm (by omega)
  | fuel + 1, alo, ahi, blo, bhi => fun hm h1 h2 => by
    rw [mblocksF]
    have hbnd := @flm_bounds a b alo ahi blo bhi
    generalize hg : find_longest_match a b alo ahi blo bhi = m at hbnd ⊢
    obtain ⟨mi, mj, mk⟩ := m
    dsimp only at hbnd ⊢
    by_cases hk : mk = 0
    · rw [if_pos hk]
      trivial
    · rw [if_neg hk]
      obtain ⟨hb1, hb2, hb3, hb4⟩ := hbnd (Nat.pos_of_ne_zero hk)
      have hmid : BlocksWF mi mj ahi bhi ((mi, mj, mk) ::
          (if mi + mk < ahi ∧ mj + mk < bhi then
            mblocksF a b fuel (mi + mk) ahi (mj + mk) bhi else [])) := by
        refine ⟨le_refl _, le_refl _, hb2, hb4, ?_⟩
        by_cases hcr : mi + mk < ahi ∧ mj + mk < bhi
        · rw [if_pos hcr]
          exact mblocksF_wf a b fuel _ ahi _ bhi (by omega) (by omega) (by omega)
        · rw [if_neg hcr]
          trivial
      by_cases hcl : alo < mi ∧ blo < mj
      · rw [if_pos hcl]
        refine blocksWF_append ?_ hmid (by omega) (by omega) (by omega) (by omega)
        exact mblocksF_wf a b fuel alo _ blo _ (by omega) (by omega) (by omega)
      · rw [if_neg hcl]
        rw [List.nil_append]
        exact blocksWF_mono (by omega) (by omega) hmid

/-- The collapsing pass preserves well-formedness. -/
theorem mergeBlocks_wf {hi1 hi2 : Nat} :
    ∀ (bs : List (Nat × Nat × Nat)) (i1 j1 k1 lo1 lo2 : Nat),
    BlocksWF (i1 + k1) (j1 + k1) hi1 hi2 bs →
    lo1 ≤ i1 → lo2 ≤ j1 → i1 + k1 ≤ hi1 → j1 + k1 ≤ hi2 →
    BlocksWF lo1 lo2 hi1 hi2 (mergeBlocks bs i1 j1 k1)
  | [], i1, j1, k1, lo1, lo2 => fun _ h1 h2 h3 h4 => by
    rw [mergeBlocks]
    by_cases hk : k1 = 0
    · rw [if_pos hk]
      trivial
    · rw [if_neg hk]
      exact ⟨h1, h2, h3, h4, trivial⟩
  | (i2, j2, k2) :: rest, i1, j1, k1, lo1, lo2 => fun hwf h1 h2 h3 h4 => by
    obtain ⟨ha, hb', hc, hd, he⟩ := hwf
    rw [mergeBlocks]
    by_cases hadj : i1 + k1 = i2 ∧ j1 + k1 = j2
    · rw [if_pos hadj]
      refine mergeBlocks_wf rest i1 j1 (k1 + k2) lo1 lo2 ?_ h1 h2 (by omega) (by omega)
      have : i1 + (k1 + k2) = i2 + k2 := by omega
      rw [this]
      have : j1 + (k1 + k2) = j2 + k2 := by omega
      rw [this]
      exact he
    · rw [if_neg hadj]
      by_cases hk : k1 = 0
      · rw [if_pos hk]
        exact mergeBlocks_wf rest i2 j2 k2 lo1 lo2 he (by omega) (by omega) hc hd
      · rw [if_neg hk]
        exact ⟨h1, h2, h3, h4, mergeBlocks_wf rest i2 j2 k2 (i1 + k1) (j1 + k1) he
          ha hb' hc hd⟩

theorem blocksWF_sentinel {la lb : Nat} :
    ∀ {bs : List (Nat × Nat × Nat)} {lo1 lo2 : Nat},
    BlocksWF lo1 lo2 la lb bs → lo1 ≤ la → lo2 ≤ lb →
    BlocksWF lo1 lo2 la lb (bs ++ [(la, lb, 0)])
  | [], lo1, lo2 => fun _ h1 h2 => ⟨h1, h2, by omega, by omega, trivial⟩
  | (i, j, k) :: rest, lo1, lo2 => fun hwf h1 h2 => by
    obtain ⟨ha, hb', hc, hd, he⟩ := hwf
    exact ⟨ha, hb', hc, hd, blocksWF_sentinel he hc hd⟩

/-- The matching-block list of `get_matching_blocks` is chained inside
`[0, len a) × [0, len b)` (with the sentinel ending exactly at the two
lengths). -/
theorem get_matching_blocks_wf (a b : List Line) :
    BlocksWF 0 0 a.length b.length (get_matching_blocks a b) := by
  rw [get_matching_blocks]
  refine blocksWF_sentinel ?_ (Nat.zero_le _) (Nat.zero_le _)
  refine mergeBlocks_wf _ 0 0 0 0 0 ?_ (le_refl _) (le_refl _) (Nat.zero_le _)
    (Nat.zero_le _)
  exact mblocksF_wf a b (a.length + b.length + 1) 0 a.length 0 b.length
    (by omega) (Nat.zero_le _) (Nat.zero_le _)

/-! ## The opcode list partitions both sequences -/

theorem OpChain_le : ∀ (ops : List Opcode) (i j ie je : Nat),
    OpChain ops i j ie je → i ≤ ie ∧ j ≤ je
  | [], i, j, ie, je => fun h => ⟨h.1.le, h.2.le⟩
  | op :: rest, i, j, ie, je => fun h => by
    obtain ⟨h1, h2, h3, h4, h5⟩ := h
    have := OpChain_le rest op.i2 op.j2 ie je h5
    omega

theorem OpChain_mem_bounds : ∀ (ops : List Opcode) (i j ie je : Nat),
    OpChain ops i j ie je → ∀ op ∈ ops,
      op.i1 ≤ op.i2 ∧ op.i2 ≤ ie ∧ op.j1 ≤ op.j2 ∧ op.j2 ≤ je
  | [], i, j, ie, je => fun _ op hop => absurd hop (List.not_mem_nil op)
  | op' :: rest, i, j, ie, je => fun h op hop => by
    obtain ⟨h1, h2, h3, h4, h5⟩ := h
    have hrest := OpChain_le rest op'.i2 op'.j2 ie je h5
    rcases List.mem_cons.1 hop with rfl | hop
    · exact ⟨h1 ▸ h3, hrest.1, h2 ▸ h4, hrest.2⟩
    · exact OpChain_mem_bounds rest op'.i2 op'.j2 ie je h5 op hop

theorem blocksEnd_append_single :
    ∀ (bs : List (Nat × Nat × Nat)) (x : Nat × Nat × Nat) (e : Nat × Nat),
    blocksEnd (bs ++ [x]) e = (x.1 + x.2.2, x.2.1 + x.2.2)
  | [], ⟨x1, x2, x3⟩, e => rfl
  | ⟨ai, bj, s⟩ :: rest, x, e => blocksEnd_append_single rest x (ai + s, bj + s)

/-- The loop of `get_opcodes` turns a well-formed block list into a
contiguous opcode chain whose opcodes all satisfy `TagOK`. -/
theorem opcodeLoop_chain {hi1 hi2 : Nat} :
    ∀ (bs : List (Nat × Nat × Nat)) (i j : Nat),
    BlocksWF i j hi1 hi2 bs →
    OpChain (opcodeLoop bs i j) i j (blocksEnd bs (i, j)).1 (blocksEnd bs (i, j)).2 ∧
    ∀ op ∈ opcodeLoop bs i j, TagOK op
  | [], i, j => fun _ => ⟨⟨rfl, rfl⟩, fun op hop => absurd hop (List.not_mem_nil op)⟩
  | (ai, bj, s) :: rest, i, j => fun hwf => by
    obtain ⟨ha, hb', hc, hd, he⟩ := hwf
    obtain ⟨ihc, iht⟩ := opcodeLoop_chain rest (ai + s) (bj + s) he
    rw [opcodeLoop]
    have htail : OpChain ((if s = 0 then [] else [⟨"equal", ai, ai + s, bj, bj + s⟩]) ++
        opcodeLoop rest (ai + s) (bj + s)) ai bj
        (blocksEnd rest (ai + s, bj + s)).1 (blocksEnd rest (ai + s, bj + s)).2 := by
      by_cases hs : s = 0
      · rw [if_pos hs, List.nil_append]
        subst hs
        simpa using ihc
      · rw [if_neg hs]
        exact ⟨rfl, rfl, Nat.le_add_right _ _, Nat.le_add_right _ _, ihc⟩
    have htailT : ∀ op ∈ (if s = 0 then ([] : List Opcode)
        else [⟨"equal", ai, ai + s, bj, bj + s⟩]) ++
        opcodeLoop rest (ai + s) (bj + s), TagOK op := by
      intro op hop
      rcases List.mem_append.1 hop with hop | hop
      · by_cases hs : s = 0
        · rw [if_pos hs] at hop
          exact absurd hop (List.not_mem_nil op)
        · rw [if_neg hs] at hop
          rcases List.mem_singleton.1 hop with rfl
          refine Or.inl ⟨rfl, ?_, ?_⟩
          · show ai < ai + s
            omega
          · show ai + s - ai = bj + s - bj
            omega
      · exact iht op hop
    constructor
    · show OpChain _ i j (blocksEnd rest (ai + s, bj + s)).1 (blocksEnd rest (ai + s, bj + s)).2
      by_cases h1 : i < ai ∧ j < bj
      · rw [if_pos h1]
        exact ⟨rfl, rfl, h1.1.le, h1.2.le, htail⟩
      · rw [if_neg h1]
        by_cases h2 : i < ai
        · rw [if_pos h2]
          exact ⟨rfl, rfl, h2.le, hb', htail⟩
        · rw [if_neg h2]
          by_cases h3 : j < bj
          · rw [if_pos h3]
            exact ⟨rfl, rfl, ha, h3.le, htail⟩
          · rw [if_neg h3]
            rw [List.nil_append]
            have hia : i = ai := by omega
            have hjb : j = bj := by omega
            rw [hia, hjb]
            exact htail
    · intro op hop
      by_cases h1 : i < ai ∧ j < bj
      · rw [if_pos h1, List.append_assoc] at hop
        rcases List.mem_append.1 hop with hop | hop
        · rcases List.mem_singleton.1 hop with rfl
          exact Or.inr (Or.inl ⟨rfl, h1.1, h1.2⟩)
        · exact htailT op hop
      · rw [if_neg h1] at hop
        by_cases h2 : i < ai
        · rw [if_pos h2, List.append_assoc] at hop
          rcases List.mem_append.1 hop with hop | hop
          · rcases List.mem_singleton.1 hop with rfl
            refine Or.inr (Or.inr (Or.inl ⟨rfl, h2, ?_⟩))
            show j = bj
            omega
          · exact htailT op hop
        · rw [if_neg h2] at hop
          by_cases h3 : j < bj
          · rw [if_pos h3, List.append_assoc] at hop
            rcases List.mem_append.1 hop with hop | hop
            · rcases List.mem_singleton.1 hop with rfl
              refine Or.inr (Or.inr (Or.inr ⟨rfl, ?_, h3⟩))
              show i = ai
              omega
            · exact htailT op hop
          · rw [if_neg h3] at hop
            rw [List.nil_append] at hop
            exact htailT op hop

/-- The opcodes of `get_opcodes` partition `[0, len a) × [0, len b)` into
contiguous runs and each opcode has the shape its tag promises. -/
theorem opcodes_valid (a b : List Line) :
    OpChain (get_opcodes a b) 0 0 a.length b.length ∧
    ∀ op ∈ get_opcodes a b, TagOK op := by
  obtain ⟨hch, ht⟩ := opcodeLoop_chain (get_matching_blocks a b) 0 0
    (get_matching_blocks_wf a b)
  have hend : blocksEnd (get_matching_blocks a b) (0, 0) = (a.length, b.length) := by
    rw [get_matching_blocks, blocksEnd_append_single]
    show (a.length + 0, b.length + 0) = _
    rw [Nat.add_zero, Nat.add_zero]
  rw [hend] at hch
  exact ⟨hch, ht⟩

/-! ## Lemmas about the per-opcode emission of `side_by_side_diff` -/

theorem length_bind_eq (f : Opcode → List (Line × Line × String)) :
    ∀ ops : List Opcode, (ops.bind f).length = (ops.map fun op => (f op).length).sum
  | [] => rfl
  | op :: rest => by
    show (f op ++ rest.bind f).length = _
    rw [List.length_append, length_bind_eq f rest, List.map_cons, List.sum_cons]

theorem pySlice_length {l : List Line} {i1 i2 : Nat} (h1 : i1 ≤ i2) (h2 : i2 ≤ l.length) :
    (pySlice l i1 i2).length = i2 - i1 := by
  rw [pySlice, List.length_drop, List.length_take]
  omega

theorem pySlice_getD {l : List Line} {i1 i2 t : Nat} (ht : t < i2 - i1) (h2 : i2 ≤ l.length) :
    (pySlice l i1 i2).getD t "" = l.getD (i1 + t) "" := by
  have hq : ((l.take i2).drop i1).get? t = l.get? (i1 + t) := by
    rw [List.get?_drop, List.get?_take (show i1 + t < i2 by omega)]
  show (((l.take i2).drop i1).get? t).getD "" = (l.get? (i1 + t)).getD ""
  rw [hq]

theorem drop_take_append_drop : ∀ (u : List Line) (i m : Nat), i ≤ m →
    (u.take m).drop i ++ u.drop m = u.drop i
  | [], i, m, _ => by simp
  | x :: u, 0, m, _ => by
    rw [List.drop_zero, List.drop_zero]
    exact List.take_append_drop m (x :: u)
  | _ :: _, i + 1, 0, h => absurd h (by omega)
  | x :: u, i + 1, m + 1, h => by
    rw [List.take_succ_cons, List.drop_succ_cons, List.drop_succ_cons, List.drop_succ_cons]
    exact drop_take_append_drop u i m (by omega)

theorem pySlice_glue (l : List Line) (i m k : Nat) (h1 : i ≤ m) (h2 : m ≤ k) :
    pySlice l i m ++ pySlice l m k = pySlice l i k := by
  rw [pySlice, pySlice, pySlice, show l.take m = (l.take k).take m by
    rw [List.take_take, Nat.min_eq_left h2]]
  exact drop_take_append_drop (l.take k) i m h1

theorem getD_replicate (c d : Line) : ∀ (n m : Nat), m < n →
    (List.replicate n c).getD m d = c
  | n + 1, 0, _ => rfl
  | n + 1, m + 1, h => by
    rw [List.replicate_succ]
    show (List.replicate n c).getD m d = c
    exact getD_replicate c d n m (by omega)

theorem getD_pad (xs : List Line) (c t : Nat) (ht : t < xs.length + c) :
    (xs ++ List.replicate c "").getD t "" =
      if t < xs.length then xs.getD t "" else "" := by
  by_cases h : t < xs.length
  · rw [if_pos h]
    exact List.getD_append _ _ _ _ h
  · rw [if_neg h]
    rw [List.getD_append_right _ _ _ _ (by omega)]
    exact getD_replicate _ _ _ _ (by omega)

theorem zip_map_status (s : String) :
    ∀ (xs ys : List Line), xs.length = ys.length →
    (xs.zip ys).map (fun p => (p.1, p.2, s)) =
      (List.range xs.length).map (fun t => (xs.getD t "", ys.getD t "", s))
  | [], [], _ => rfl
  | [], _ :: _, h => by cases h
  | _ :: _, [], h => by cases h
  | x :: xs, y :: ys, h => by
    rw [List.zip_cons_cons, List.map_cons, List.length_cons, List.range_succ_eq_map,
      List.map_cons, List.map_map]
    refine congrArg (List.cons _) ?_
    rw [zip_map_status s xs ys (Nat.succ.inj h)]
    refine List.map_congr_left ?_
    intro t _
    rfl

theorem zip_replicate_right (c : Line) :
    ∀ (xs : List Line) (n : Nat), xs.length = n →
    xs.zip (List.replicate n c) = xs.map (fun x => (x, c))
  | [], _, h => by rw [← h]; rfl
  | x :: xs, n, h => by
    rw [← h, List.length_cons, List.replicate_succ, List.zip_cons_cons, List.map_cons,
      zip_replicate_right c xs xs.length rfl]

theorem zip_replicate_left (c : Line) :
    ∀ (ys : List Line) (n : Nat), ys.length = n →
    (List.replicate n c).zip ys = ys.map (fun y => (c, y))
  | [], _, h => by rw [← h]; rfl
  | y :: ys, n, h => by
    rw [← h, List.length_cons, List.replicate_succ, List.zip_cons_cons, List.map_cons,
      zip_replicate_left c ys ys.length rfl]

/-- The pairs emitted for one opcode, as a positional pairing with empty
padding on the shorter side, every pair carrying the tag's status. -/
theorem emitOp_eq_range {a b : List Line} {op : Opcode}
    (h1 : op.i1 ≤ op.i2) (h2 : op.i2 ≤ a.length)
    (h3 : op.j1 ≤ op.j2) (h4 : op.j2 ≤ b.length) :
    emitOp a b op = (List.range (max (op.i2 - op.i1) (op.j2 - op.j1))).map
      (fun t => ((if t < op.i2 - op.i1 then a.getD (op.i1 + t) "" else ""),
        (if t < op.j2 - op.j1 then b.getD (op.j1 + t) "" else ""),
        statusOf op.tag)) := by
  have hLo := pySlice_length h1 h2
  have hLn := pySlice_length h3 h4
  simp only [emitOp, hLo, hLn]
  have hl1 : (pySlice a op.i1 op.i2 ++ List.replicate
      (max (op.i2 - op.i1) (op.j2 - op.j1) - (op.i2 - op.i1)) "").length =
      max (op.i2 - op.i1) (op.j2 - op.j1) := by
    rw [List.length_append, List.length_replicate, hLo]
    omega
  have hl2 : (pySlice b op.j1 op.j2 ++ List.replicate
      (max (op.i2 - op.i1) (op.j2 - op.j1) - (op.j2 - op.j1)) "").length =
      max (op.i2 - op.i1) (op.j2 - op.j1) := by
    rw [List.length_append, List.length_replicate, hLn]
    omega
  rw [zip_map_status _ _ _ (hl1.trans hl2.symm), hl1]
  refine List.map_congr_left ?_
  intro t ht
  rw [List.mem_range] at ht
  have hpa : (pySlice a op.i1 op.i2 ++ List.replicate
      (max (op.i2 - op.i1) (op.j2 - op.j1) - (op.i2 - op.i1)) "").getD t "" =
      if t < op.i2 - op.i1 then (pySlice a op.i1 op.i2).getD t "" else "" := by
    rw [getD_pad _ _ _ (by rw [hLo]; omega), hLo]
  have hpb : (pySlice b op.j1 op.j2 ++ List.replicate
      (max (op.i2 - op.i1) (op.j2 - op.j1) - (op.j2 - op.j1)) "").getD t "" =
      if t < op.j2 - op.j1 then (pySlice b op.j1 op.j2).getD t "" else "" := by
    rw [getD_pad _ _ _ (by rw [hLn]; omega), hLn]
  rw [hpa, hpb]
  by_cases hta : t < op.i2 - op.i1
  · rw [if_pos hta, if_pos hta, pySlice_getD hta h2]
    by_cases htb : t < op.j2 - op.j1
    · rw [if_pos htb, if_pos htb, pySlice_getD htb h4]
    · rw [if_neg htb, if_neg htb]
  · rw [if_neg hta, if_neg hta]
    by_cases htb : t < op.j2 - op.j1
    · rw [if_pos htb, if_pos htb, pySlice_getD htb h4]
    · rw [if_neg htb, if_neg htb]

theorem emitOp_length {a b : List Line} {op : Opcode}
    (h1 : op.i1 ≤ op.i2) (h2 : op.i2 ≤ a.length)
    (h3 : op.j1 ≤ op.j2) (h4 : op.j2 ≤ b.length) :
    (emitOp a b op).length = max (op.i2 - op.i1) (op.j2 - op.j1) := by
  rw [emitOp_eq_range h1 h2 h3 h4, List.length_map, List.length_range]

/-- A delete run emits one `(old line, "", "Removed")` pair per old line. -/
theorem emitOp_delete {a b : List Line} {op : Opcode}
    (htag : op.tag = "delete") (hjj : op.j1 = op.j2) :
    emitOp a b op = (pySlice a op.i1 op.i2).map (fun o => (o, "", "Removed")) := by
  have hnew : pySlice b op.j1 op.j2 = [] := by
    rw [← hjj, pySlice]
    exact List.drop_eq_nil_of_le (by rw [List.length_take]; omega)
  simp only [emitOp, hnew, List.length_nil, Nat.max_zero, Nat.sub_self, Nat.sub_zero,
    List.replicate_zero, List.append_nil, List.nil_append]
  rw [zip_replicate_right _ _ _ rfl, List.map_map]
  refine List.map_congr_left ?_
  intro o _
  show (o, "", statusOf op.tag) = (o, "", "Removed")
  rw [htag]
  rfl

/-- An insert run emits one `("", new line, "Added")` pair per new line. -/
theorem emitOp_insert {a b : List Line} {op : Opcode}
    (htag : op.tag = "insert") (hii : op.i1 = op.i2) :
    emitOp a b op = (pySlice b op.j1 op.j2).map (fun n => ("", n, "Added")) := by
  have hold : pySlice a op.i1 op.i2 = [] := by
    rw [← hii, pySlice]
    exact List.drop_eq_nil_of_le (by rw [List.length_take]; omega)
  simp only [emitOp, hold, List.length_nil, Nat.zero_max, Nat.sub_self, Nat.sub_zero,
    List.replicate_zero, List.append_nil, List.nil_append]
  rw [zip_replicate_left _ _ _ rfl, List.map_map]
  refine List.map_congr_left ?_
  intro n _
  show ("", n, statusOf op.tag) = ("", n, "Added")
  rw [htag]
  rfl

/-- An equal run pairs the two equally long chunks with no padding. -/
theorem emitOp_equal {a b : List Line} {op : Opcode}
    (htag : op.tag = "equal")
    (hlen : (pySlice a op.i1 op.i2).length = (pySlice b op.j1 op.j2).length) :
    emitOp a b op = ((pySlice a op.i1 op.i2).zip (pySlice b op.j1 op.j2)).map
      (fun p => (p.1, p.2, "Unchanged")) := by
  simp only [emitOp, hlen, Nat.max_self, Nat.sub_self, List.replicate_zero,
    List.append_nil]
  refine List.map_congr_left ?_
  intro p _
  show (p.1, p.2, statusOf op.tag) = (p.1, p.2, "Unchanged")
  rw [htag]
  rfl

theorem opchain_flatten_old (a : List Line) :
    ∀ (ops : List Opcode) (i j ie je : Nat), OpChain ops i j ie je →
      (ops.map (fun op => pySlice a op.i1 op.i2)).flatten = pySlice a i ie
  | [], i, j, ie, je => fun h => by
    rw [h.1, List.map_nil, List.flatten_nil, pySlice]
    exact (List.drop_eq_nil_of_le (by rw [List.length_take]; omega)).symm
  | op :: rest, i, j, ie, je => fun h => by
    obtain ⟨h1, h2, h3, h4, h5⟩ := h
    have hle := OpChain_le rest op.i2 op.j2 ie je h5
    rw [List.map_cons, List.flatten_cons, opchain_flatten_old a rest _ _ _ _ h5, h1]
    exact pySlice_glue a i op.i2 ie (h1 ▸ h3) hle.1

theorem opchain_flatten_new (b : List Line) :
    ∀ (ops : List Opcode) (i j ie je : Nat), OpChain ops i j ie je →
      (ops.map (fun op => pySlice b op.j1 op.j2)).flatten = pySlice b j je
  | [], i, j, ie, je => fun h => by
    rw [h.2, List.map_nil, List.flatten_nil, pySlice]
    exact (List.drop_eq_nil_of_le (by rw [List.length_take]; omega)).symm
  | op :: rest, i, j, ie, je => fun h => by
    obtain ⟨h1, h2, h3, h4, h5⟩ := h
    have hle := OpChain_le rest op.i2 op.j2 ie je h5
    rw [List.map_cons, List.flatten_cons, opchain_flatten_new b rest _ _ _ _ h5, h2]
    exact pySlice_glue b j op.j2 je (h2 ▸ h4) hle.2

/-! ## Claim theorems: the line sequence aligner -/

/-- C1: a replace run with old sub-run length `Lo = i2 - i1` and new
sub-run length `Ln = j2 - j1` produces exactly `max Lo Ln` pairs, pairing
the sub-runs positionally with empty-string padding on the shorter side,
and every pair (padded positions included) has status `"Modified"`;
`side_by_side_diff` is the in-order concatenation of these per-run
emissions. -/
theorem claim_C1 (a b : List Line) (op : Opcode) (hop : op ∈ get_opcodes a b)
    (htag : op.tag = "replace") :
    (emitOp a b op).length = max (op.i2 - op.i1) (op.j2 - op.j1) ∧
    emitOp a b op = (List.range (max (op.i2 - op.i1) (op.j2 - op.j1))).map
      (fun t => ((if t < op.i2 - op.i1 then a.getD (op.i1 + t) "" else ""),
        (if t < op.j2 - op.j1 then b.getD (op.j1 + t) "" else ""), "Modified")) ∧
    side_by_side_diff a b = (get_opcodes a b).bind (emitOp a b) := by
  obtain ⟨hch, htags⟩ := opcodes_valid a b
  obtain ⟨hb1, hb2, hb3, hb4⟩ := OpChain_mem_bounds _ 0 0 _ _ hch op hop
  have hstat : statusOf op.tag = "Modified" := by rw [htag]; rfl
  refine ⟨emitOp_length hb1 hb2 hb3 hb4, ?_, rfl⟩
  rw [emitOp_eq_range hb1 hb2 hb3 hb4]
  simp only [hstat]

theorem claim_C1_witness :
    (⟨"replace", 0, 2, 0, 3⟩ : Opcode) ∈ get_opcodes ["a", "b"] ["c", "d", "e"] ∧
    (⟨"replace", 0, 2, 0, 3⟩ : Opcode).tag = "replace" ∧
    (emitOp ["a", "b"] ["c", "d", "e"] ⟨"replace", 0, 2, 0, 3⟩).length =
      max ((⟨"replace", 0, 2, 0, 3⟩ : Opcode).i2 - (⟨"replace", 0, 2, 0, 3⟩ : Opcode).i1)
        ((⟨"replace", 0, 2, 0, 3⟩ : Opcode).j2 - (⟨"replace", 0, 2, 0, 3⟩ : Opcode).j1) :=
  ⟨by decide, by decide,
   (claim_C1 ["a", "b"] ["c", "d", "e"] ⟨"replace", 0, 2, 0, 3⟩ (by decide) (by decide)).1⟩

/-- C3: the output length of `side_by_side_diff` is the sum over opcode
runs of `max Lo Ln`; the runs partition both documents contiguously (so
the pairs appear in original document order), equal runs emit `L`
`"Unchanged"` pairs pairing the two equal-length chunks, delete runs one
`"Removed"` pair per old line with empty new side, and insert runs one
`"Added"` pair per new line with empty old side. -/
theorem claim_C3 (a b : List Line) :
    (side_by_side_diff a b).length =
      ((get_opcodes a b).map (fun op => max (op.i2 - op.i1) (op.j2 - op.j1))).sum ∧
    OpChain (get_opcodes a b) 0 0 a.length b.length ∧
    ((get_opcodes a b).map (fun op => pySlice a op.i1 op.i2)).flatten = a ∧
    ((get_opcodes a b).map (fun op => pySlice b op.j1 op.j2)).flatten = b ∧
    ∀ op ∈ get_opcodes a b,
      (op.tag = "equal" → (emitOp a b op).length = op.i2 - op.i1 ∧
        emitOp a b op = ((pySlice a op.i1 op.i2).zip (pySlice b op.j1 op.j2)).map
          (fun p => (p.1, p.2, "Unchanged"))) ∧
      (op.tag = "delete" → emitOp a b op =
        (pySlice a op.i1 op.i2).map (fun o => (o, "", "Removed"))) ∧
      (op.tag = "insert" → emitOp a b op =
        (pySlice b op.j1 op.j2).map (fun n => ("", n, "Added"))) := by
  obtain ⟨hch, htags⟩ := opcodes_valid a b
  have hbounds := OpChain_mem_bounds _ 0 0 _ _ hch
  refine ⟨?_, hch, ?_, ?_, ?_⟩
  · rw [side_by_side_diff, length_bind_eq]
    refine congrArg List.sum (List.map_congr_left ?_)
    intro op hop
    obtain ⟨hb1, hb2, hb3, hb4⟩ := hbounds op hop
    exact emitOp_length hb1 hb2 hb3 hb4
  · rw [opchain_flatten_old a _ 0 0 a.length b.length hch, pySlice, List.take_length,
      List.drop_zero]
  · rw [opchain_flatten_new b _ 0 0 a.length b.length hch, pySlice, List.take_length,
      List.drop_zero]
  · intro op hop
    obtain ⟨hb1, hb2, hb3, hb4⟩ := hbounds op hop
    refine ⟨?_, ?_, ?_⟩
    · intro htag
      have hLL : op.i2 - op.i1 = op.j2 - op.j1 := by
        rcases htags op hop with h | h | h | h
        · exact h.2.2
        · rw [htag] at h; exact absurd h.1 (by decide)
        · rw [htag] at h; exact absurd h.1 (by decide)
        · rw [htag] at h; exact absurd h.1 (by decide)
      have hlen : (pySlice a op.i1 op.i2).length = (pySlice b op.j1 op.j2).length := by
        rw [pySlice_length hb1 hb2, pySlice_length hb3 hb4, hLL]
      refine ⟨?_, emitOp_equal htag hlen⟩
      rw [emitOp_length hb1 hb2 hb3 hb4]
      omega
    · intro htag
      have hjj : op.j1 = op.j2 := by
        rcases htags op hop with h | h | h | h
        · rw [htag] at h; exact absurd h.1 (by decide)
        · rw [htag] at h; exact absurd h.1 (by decide)
        · exact h.2.2
        · rw [htag] at h; exact absurd h.1 (by decide)
      exact emitOp_delete htag hjj
    · intro htag
      have hii : op.i1 = op.i2 := by
        rcases htags op hop with h | h | h | h
        · rw [htag] at h; exact absurd h.1 (by decide)
        · rw [htag] at h; exact absurd h.1 (by decide)
        · rw [htag] at h; exact absurd h.1 (by decide)
        · exact h.2.1
      exact emitOp_insert htag hii

theorem claim_C3_witness :
    (side_by_side_diff ["x", "y"] ["y"]).length =
      ((get_opcodes ["x", "y"] ["y"]).map
        (fun op => max (op.i2 - op.i1) (op.j2 - op.j1))).sum ∧
    (⟨"delete", 0, 1, 0, 0⟩ : Opcode) ∈ get_opcodes ["x", "y"] ["y"] ∧
    emitOp ["x", "y"] ["y"] ⟨"delete", 0, 1, 0, 0⟩ =
      (pySlice ["x", "y"] 0 1).map (fun o => (o, "", "Removed")) :=
  ⟨(claim_C3 ["x", "y"] ["y"]).1, by decide,
   (((claim_C3 ["x", "y"] ["y"]).2.2.2.2 ⟨"delete", 0, 1, 0, 0⟩ (by decide)).2.1 rfl)⟩

/-! ## Comparing a sequence with itself: the diagonal argument

When `a` is compared with itself every chain the inner loop can build at
row `i`, ending at any column, is no longer than the diagonal chain
`diagRun a i` (a chain at `(i, j)` transports both to the diagonal at
column `j` and to the diagonal at row `i`, because `b2j` either holds all
positions of a line or none).  Since columns are scanned in ascending
order the diagonal entry is reached before any larger column, so the
running best always sits on the diagonal; the two extension loops then
stretch a diagonal best to the full sequence. -/

theorem mem_b2jRaw {b : List Line} {x : Line} {j : Nat} :
    j ∈ b2jRaw b x ↔ j < b.length ∧ b.getD j "" = x := by
  simp [b2jRaw, List.mem_filter, List.mem_range]

theorem b2j_eq_raw_or_nil (b : List Line) (x : Line) :
    b2j b x = b2jRaw b x ∨ b2j b x = [] := by
  simp only [b2j]
  by_cases h : 200 ≤ b.length ∧ b.length / 100 + 1 < (b2jRaw b x).length
  · rw [if_pos h]
    exact Or.inr rfl
  · rw [if_neg h]
    exact Or.inl rfl

theorem b2j_sorted (b : List Line) (x : Line) : (b2j b x).Pairwise (· < ·) := by
  rcases b2j_eq_raw_or_nil b x with h | h <;> rw [h]
  · exact (List.pairwise_lt_range b.length).sublist (List.filter_sublist _)
  · exact List.Pairwise.nil

theorem mem_b2j {b : List Line} {x : Line} {j : Nat} (h : j ∈ b2j b x) :
    j < b.length ∧ b.getD j "" = x := by
  rcases b2j_eq_raw_or_nil b x with h' | h'
  · rw [h'] at h
    exact mem_b2jRaw.1 h
  · rw [h'] at h
    exact absurd h (List.not_mem_nil j)

theorem b2j_self_mem {a : List Line} {i : Nat} (hin : i < a.length)
    (hne : b2j a (a.getD i "") ≠ []) : i ∈ b2j a (a.getD i "") := by
  rcases b2j_eq_raw_or_nil a (a.getD i "") with h' | h'
  · rw [h']
    exact mem_b2jRaw.2 ⟨hin, rfl⟩
  · exact absurd h' hne

theorem diagRun_pos {a : List Line} {i : Nat} (hne : b2j a (a.getD i "") ≠ []) :
    diagRun a i = (if i = 0 then 0 else diagRun a (i - 1)) + 1 := by
  cases i with
  | zero =>
    rw [diagRun, if_neg hne]
    rfl
  | succ j =>
    rw [diagRun, if_neg hne]
    rfl

theorem diagRun_zero_of_nil {a : List Line} {i : Nat}
    (hnil : b2j a (a.getD i "") = []) : diagRun a i = 0 := by
  cases i with
  | zero => rw [diagRun, if_pos hnil]
  | succ j => rw [diagRun, if_pos hnil]

/-- One inner-loop pass over a row of the self-comparison: if every
candidate chain value is bounded by the diagonal potential `D`, a
diagonal running best stays diagonal and ends at least as large as
`D i`, and the fresh row map records `D i` at the diagonal and stays
bounded by `D`. -/
theorem innerLoop_diag {bhi i : Nat} {f D : Nat → Nat} :
    ∀ (js : List Nat) (g : Nat → Nat) (d s : Nat),
    js.Pairwise (· < ·) →
    (∀ j ∈ js, j < bhi) →
    (∀ j ∈ js, (if j = 0 then 0 else f (j - 1)) + 1 ≤ D j) →
    (∀ j ∈ js, (if j = 0 then 0 else f (j - 1)) + 1 ≤ D i) →
    (∀ j', g j' ≤ D j' ∧ g j' ≤ D i) →
    ((i ∈ js ∧ (if i = 0 then 0 else f (i - 1)) + 1 = D i ∧ (∀ r, r < i → D r ≤ s)) ∨
      (i ∉ js ∧ D i ≤ s ∧ (∀ r, r < i → D r ≤ s) ∧ g i = D i)) →
    ∃ d' s', (innerLoop 0 bhi i f js g (d, d, s)).2 = (d', d', s') ∧ D i ≤ s' ∧
      (∀ r, r < i → D r ≤ s') ∧ (innerLoop 0 bhi i f js g (d, d, s)).1 i = D i ∧
      (∀ j', (innerLoop 0 bhi i f js g (d, d, s)).1 j' ≤ D j' ∧
        (innerLoop 0 bhi i f js g (d, d, s)).1 j' ≤ D i)
  | [], g, d, s => fun _ _ _ _ hg hphase => by
    rcases hphase with ⟨hiJ, _⟩ | ⟨_, hDi, hpre, hgi⟩
    · exact absurd hiJ (List.not_mem_nil i)
    · exact ⟨d, s, rfl, hDi, hpre, hgi, hg⟩
  | j :: js, g, d, s => fun hsort hjs hkD hkI hg hphase => by
    rw [innerLoop, if_neg (Nat.not_lt_zero j), if_neg (by
      have := hjs j (List.mem_cons_self j js)
      omega)]
    have hsort' := (List.pairwise_cons.1 hsort).2
    have hlt := (List.pairwise_cons.1 hsort).1
    have hjs' := fun x hx => hjs x (List.mem_cons_of_mem j hx)
    have hkD' := fun x hx => hkD x (List.mem_cons_of_mem j hx)
    have hkI' := fun x hx => hkI x (List.mem_cons_of_mem j hx)
    have hkDj := hkD j (List.mem_cons_self j js)
    have hkIj := hkI j (List.mem_cons_self j js)
    rcases hphase with ⟨hiJ, hkEq, hpre⟩ | ⟨hiNJ, hDi, hpre, hgi⟩
    · by_cases hji : j = i
      · subst hji
        have hkval : (if j = 0 then 0 else f (j - 1)) + 1 = D j := hkEq
        have hiNJ' : j ∉ js := fun hx => absurd (hlt j hx) (lt_irrefl j)
        have hg' : ∀ j', (fun j' => if j' = j then (if j = 0 then 0 else f (j - 1)) + 1
            else g j') j' ≤ D j' ∧
            (fun j' => if j' = j then (if j = 0 then 0 else f (j - 1)) + 1 else g j') j'
              ≤ D j := by
          intro j'
          by_cases hj' : j' = j
          · simp only [if_pos hj', hkval]
            exact ⟨le_of_eq (hj' ▸ rfl), le_refl _⟩
          · simp only [if_neg hj']
            exact hg j'
        by_cases hupd : s < (if j = 0 then 0 else f (j - 1)) + 1
        · rw [if_pos hupd]
          exact innerLoop_diag js _ _ _ hsort' hjs' hkD' hkI' hg'
            (Or.inr ⟨hiNJ', by omega, fun r hr => by have := hpre r hr; omega, by
              show (if j = j then (if j = 0 then 0 else f (j - 1)) + 1 else g j) = D j
              rw [if_pos rfl]
              exact hkval⟩)
        · rw [if_neg hupd]
          exact innerLoop_diag js _ _ _ hsort' hjs' hkD' hkI' hg'
            (Or.inr ⟨hiNJ', by omega, hpre, by
              show (if j = j then (if j = 0 then 0 else f (j - 1)) + 1 else g j) = D j
              rw [if_pos rfl]
              exact hkval⟩)
      · have hiJ' : i ∈ js := by
          rcases List.mem_cons.1 hiJ with h | h
          · exact absurd h.symm hji
          · exact h
        have hjlt : j < i := hlt i hiJ'
        have hnupd : ¬ s < (if j = 0 then 0 else f (j - 1)) + 1 := by
          have := hpre j hjlt
          omega
        rw [if_neg hnupd]
        have hg' : ∀ j', (fun j' => if j' = j then (if j = 0 then 0 else f (j - 1)) + 1
            else g j') j' ≤ D j' ∧
            (fun j' => if j' = j then (if j = 0 then 0 else f (j - 1)) + 1 else g j') j'
              ≤ D i := by
          intro j'
          by_cases hj' : j' = j
          · simp only [if_pos hj']
            exact ⟨hj' ▸ hkDj, hkIj⟩
          · simp only [if_neg hj']
            exact hg j'
        exact innerLoop_diag js _ _ _ hsort' hjs' hkD' hkI' hg'
          (Or.inl ⟨hiJ', hkEq, hpre⟩)
    · have hji : j ≠ i := fun h => hiNJ (h ▸ List.mem_cons_self j js)
      have hiNJ' : i ∉ js := fun hx => hiNJ (List.mem_cons_of_mem j hx)
      have hnupd : ¬ s < (if j = 0 then 0 else f (j - 1)) + 1 := by omega
      rw [if_neg hnupd]
      have hg' : ∀ j', (fun j' => if j' = j then (if j = 0 then 0 else f (j - 1)) + 1
          else g j') j' ≤ D j' ∧
          (fun j' => if j' = j then (if j = 0 then 0 else f (j - 1)) + 1 else g j') j'
            ≤ D i := by
        intro j'
        by_cases hj' : j' = j
        · simp only [if_pos hj']
          exact ⟨hj' ▸ hkDj, hkIj⟩
        · simp only [if_neg hj']
          exact hg j'
      exact innerLoop_diag js _ _ _ hsort' hjs' hkD' hkI' hg'
        (Or.inr ⟨hiNJ', hDi, hpre, by
          show (if i = j then (if j = 0 then 0 else f (j - 1)) + 1 else g i) = D i
          rw [if_neg (fun h => hji h.symm)]
          exact hgi⟩)

/-- The row loop of the self-comparison keeps the best diagonal and ends
with a best size dominating every diagonal run. -/
theorem rows_diag (a : List Line) :
    ∀ (cnt i : Nat) (f : Nat → Nat) (d s : Nat),
    i + cnt = a.length →
    (∀ j', f j' ≤ diagRun a j') →
    (∀ j', f j' ≤ (if i = 0 then 0 else diagRun a (i - 1))) →
    (i = 0 ∨ f (i - 1) = diagRun a (i - 1)) →
    (∀ r, r < i → diagRun a r ≤ s) →
    ∃ d' s', rows a (b2j a) 0 a.length (List.range' i cnt) f (d, d, s) = (d', d', s') ∧
      ∀ r, r < a.length → diagRun a r ≤ s'
  | 0, i, f, d, s => fun hcnt _ _ _ hpre =>
    ⟨d, s, rfl, fun r hr => hpre r (by omega)⟩
  | cnt + 1, i, f, d, s => fun hcnt hf1 hf2 hfd hpre => by
    have hin : i < a.length := by omega
    rw [List.range'_succ, rows]
    by_cases hnil : b2j a (a.getD i "") = []
    · rw [hnil]
      show ∃ d' s', rows a (b2j a) 0 a.length (List.range' (i + 1) cnt)
        (fun _ => 0) (d, d, s) = (d', d', s') ∧ _
      have hDi : diagRun a i = 0 := diagRun_zero_of_nil hnil
      refine rows_diag a cnt (i + 1) (fun _ => 0) d s (by omega)
        (fun j' => Nat.zero_le _) (fun j' => Nat.zero_le _) (Or.inr ?_) ?_
      · show (0 : Nat) = diagRun a (i + 1 - 1)
        rw [Nat.add_sub_cancel, hDi]
      · intro r hr
        rcases Nat.lt_succ_iff_lt_or_eq.1 hr with hr | rfl
        · exact hpre r hr
        · rw [hDi]
          exact Nat.zero_le _
    · have hiJ : i ∈ b2j a (a.getD i "") := b2j_self_mem hin hnil
      have hDi : diagRun a i = (if i = 0 then 0 else diagRun a (i - 1)) + 1 :=
        diagRun_pos hnil
      have hkD : ∀ j ∈ b2j a (a.getD i ""),
          (if j = 0 then 0 else f (j - 1)) + 1 ≤ diagRun a j := by
        intro j hj
        obtain ⟨hjn, hjx⟩ := mem_b2j hj
        have hjne : b2j a (a.getD j "") ≠ [] := by
          rw [hjx]
          exact hnil
        have hDj : diagRun a j = (if j = 0 then 0 else diagRun a (j - 1)) + 1 :=
          diagRun_pos hjne
        rw [hDj]
        by_cases hj0 : j = 0
        · rw [if_pos hj0, if_pos hj0]
        · rw [if_neg hj0, if_neg hj0]
          exact Nat.succ_le_succ (hf1 (j - 1))
      have hkI : ∀ j ∈ b2j a (a.getD i ""),
          (if j = 0 then 0 else f (j - 1)) + 1 ≤ diagRun a i := by
        intro j hj
        rw [hDi]
        by_cases hj0 : j = 0
        · rw [if_pos hj0]
          omega
        · rw [if_neg hj0]
          have := hf2 (j - 1)
          omega
      have hkEq : (if i = 0 then 0 else f (i - 1)) + 1 = diagRun a i := by
        rw [hDi]
        by_cases hi0 : i = 0
        · rw [if_pos hi0, if_pos hi0]
        · rw [if_neg hi0, if_neg hi0]
          rcases hfd with h | h
          · exact absurd h hi0
          · rw [h]
      obtain ⟨d', s', hres, hDis', hpre', hgi, hgb⟩ :=
        @innerLoop_diag a.length i f (diagRun a)
          (b2j a (a.getD i "")) (fun _ => 0) d s (b2j_sorted a _)
          (fun j hj => (mem_b2j hj).1) hkD hkI
          (fun j' => ⟨Nat.zero_le _, Nat.zero_le _⟩) (Or.inl ⟨hiJ, hkEq, hpre⟩)
      rw [hres]
      refine rows_diag a cnt (i + 1) _ d' s' (by omega) (fun j' => (hgb j').1) ?_ ?_ ?_
      · intro j'
        rw [if_neg (Nat.succ_ne_zero i), Nat.add_sub_cancel]
        exact (hgb j').2
      · refine Or.inr ?_
        rw [Nat.add_sub_cancel]
        exact hgi
      · intro r hr
        rcases Nat.lt_succ_iff_lt_or_eq.1 hr with hr | rfl
        · exact hpre' r hr
        · exact hDis'

theorem extendBack_diag (a : List Line) :
    ∀ (d s : Nat), extendBack a a 0 0 d d s = (0, 0, s + d)
  | 0, s => by
    rw [extendBack, Nat.add_zero]
  | d + 1, s => by
    rw [extendBack, if_pos ⟨Nat.succ_pos d, Nat.succ_pos d, rfl⟩,
      Nat.add_sub_cancel, extendBack_diag a d (s + 1)]
    rw [show s + 1 + d = s + (d + 1) from by omega]

theorem extendFwd_diag (a : List Line) :
    ∀ (fuel bs : Nat), bs ≤ a.length → a.length ≤ bs + fuel →
    extendFwdAux a a a.length a.length 0 0 fuel bs = a.length
  | 0, bs => fun h1 h2 => by
    rw [extendFwdAux]
    omega
  | fuel + 1, bs => fun h1 h2 => by
    rw [extendFwdAux]
    by_cases hc : bs < a.length
    · rw [if_pos ⟨by omega, by omega, rfl⟩]
      exact extendFwd_diag a fuel (bs + 1) (by omega) (by omega)
    · rw [if_neg (fun h => hc (by omega : bs < a.length))]
      omega

/-- Comparing a sequence with itself, `find_longest_match` over the full
window returns the whole sequence as one block. -/
theorem flm_diag (a : List Line) :
    find_longest_match a a 0 a.length 0 a.length = (0, 0, a.length) := by
  obtain ⟨d', s', hrows, _⟩ := rows_diag a a.length 0 (fun _ => 0) 0 0
    (by omega) (fun j' => Nat.zero_le _) (fun j' => Nat.zero_le _) (Or.inl rfl)
    (fun r hr => absurd hr (Nat.not_lt_zero r))
  have hbi : BestInv 0 a.length 0 a.length
      (rows a (b2j a) 0 a.length (List.range' 0 (a.length - 0)) (fun _ => 0)
        (0, 0, 0)) :=
    rows_inv (a.length - 0) 0 (fun _ => 0) (0, 0, 0) (le_refl 0) (by omega)
      (fun j' => ⟨Nat.zero_le _, Nat.zero_le _⟩) (Or.inl rfl)
  rw [Nat.sub_zero, hrows] at hbi
  have hsd : s' + d' ≤ a.length := by
    rcases hbi with hb | hb
    · rw [Prod.mk.injEq, Prod.mk.injEq] at hb
      omega
    · have hb' : 0 < s' ∧ 0 ≤ d' ∧ d' + s' ≤ a.length ∧ 0 ≤ d' ∧ d' + s' ≤ a.length := hb
      omega
  simp only [find_longest_match]
  rw [Nat.sub_zero, hrows, extendBack_diag a d' s',
    extendFwd_diag a a.length (s' + d') hsd (by omega)]

/-- C2: aligning a sequence with itself yields one pair per line, every
pair `"Unchanged"`. -/
theorem claim_C2 (a : List Line) :
    (side_by_side_diff a a).length = a.length ∧
    ∀ p ∈ side_by_side_diff a a, p.2.2 = "Unchanged" := by
  have hmain : side_by_side_diff a a =
      (a.zip a).map (fun p => (p.1, p.2, "Unchanged")) := by
    cases hn : a.length with
    | zero =>
      have ha : a = [] := List.length_eq_zero.1 hn
      subst ha
      rfl
    | succ n =>
      have hops : get_opcodes a a = [⟨"equal", 0, a.length, 0, a.length⟩] := by
        rw [get_opcodes, get_matching_blocks, mblocksF, flm_diag]
        rw [if_neg (show ¬ ((0, 0, a.length) : Nat × Nat × Nat).2.2 = 0 from by
          show ¬ a.length = 0
          omega)]
        rw [if_neg (show ¬ (0 < ((0, 0, a.length) : Nat × Nat × Nat).1 ∧
            0 < ((0, 0, a.length) : Nat × Nat × Nat).2.1) from by
          rintro ⟨h, -⟩
          exact absurd h (lt_irrefl 0))]
        rw [if_neg (show ¬ (((0, 0, a.length) : Nat × Nat × Nat).1 +
              ((0, 0, a.length) : Nat × Nat × Nat).2.2 < a.length ∧
            ((0, 0, a.length) : Nat × Nat × Nat).2.1 +
              ((0, 0, a.length) : Nat × Nat × Nat).2.2 < a.length) from by
          rintro ⟨h, -⟩
          have h' : 0 + a.length < a.length := h
          omega)]
        rw [List.nil_append, mergeBlocks,
          if_pos (show 0 + 0 = ((0, 0, a.length) : Nat × Nat × Nat).1 ∧
            0 + 0 = ((0, 0, a.length) : Nat × Nat × Nat).2.1 from ⟨rfl, rfl⟩)]
        rw [mergeBlocks, if_neg (show ¬ (0 + a.length = 0) from by omega)]
        simp only [Nat.zero_add, List.singleton_append]
        rw [opcodeLoop]
        rw [if_neg (show ¬ ((0 : Nat) < 0 ∧ (0 : Nat) < 0) from by omega),
          if_neg (show ¬ ((0 : Nat) < 0) from by omega),
          if_neg (show ¬ ((0 : Nat) < 0) from by omega),
          if_neg (show ¬ (a.length = 0) from by omega)]
        simp only [Nat.zero_add]
        rw [opcodeLoop]
        rw [if_neg (show ¬ (a.length < a.length ∧ a.length < a.length) from by omega),
          if_neg (show ¬ (a.length < a.length) from by omega),
          if_neg (show ¬ (a.length < a.length) from by omega),
          if_pos (show (0 : Nat) = 0 from rfl)]
        rw [opcodeLoop]
        simp only [List.nil_append, List.append_nil]
      rw [side_by_side_diff, hops]
      show emitOp a a ⟨"equal", 0, a.length, 0, a.length⟩ ++ [] = _
      rw [List.append_nil]
      have hsl : pySlice a 0 a.length = a := by
        rw [pySlice, List.take_length, List.drop_zero]
      have heq := @emitOp_equal a a ⟨"equal", 0, a.length, 0, a.length⟩ rfl (by rw [hsl])
      rw [heq, hsl]
  constructor
  · rw [hmain, List.length_map, List.length_zip, Nat.min_self]
  · intro p hp
    rw [hmain] at hp
    obtain ⟨q, _, rfl⟩ := List.mem_map.1 hp
    rfl

theorem claim_C2_witness :
    (side_by_side_diff ["a", "b"] ["a", "b"]).length = 2 ∧
    ("a", "a", "Unchanged") ∈ side_by_side_diff ["a", "b"] ["a", "b"] ∧
    (("a", "a", "Unchanged") : Line × Line × String).2.2 = "Unchanged" :=
  ⟨(claim_C2 ["a", "b"]).1, by decide,
   (claim_C2 ["a", "b"]).2 ("a", "a", "Unchanged") (by decide)⟩

theorem claim_C10_witness :
    (("a.txt".toList, "Only in Old Folder", []) : Record) ∈
      (compare_folders sOnlyO sNone "/o".toList "/n".toList [] false false).diffs ∧
    (("a.txt".toList, "Only in Old Folder", ([] : List (Line × Line × String))) : Record).2.1
      ≠ "Side-by-side diff" ∧
    (("a.txt".toList, "Only in Old Folder", ([] : List (Line × Line × String))) : Record).2.2
      = [] :=
  ⟨by decide, by decide,
   claim_C10 sOnlyO sNone "/o".toList "/n".toList [] false false _ (by decide) (by decide)⟩

end VersionCompare
